import Mathlib

/-!
Shallow embedding of the elevator-simulator core
(`src/core/elevator_simulator.py`, `src/core/strategies.py`,
`src/core/advanced_strategies.py`, `src/core/simulation_engine.py`).

Python floats are modelled as rationals (`ℚ`), Python ints as `ℤ`/`ℕ`,
Python sets of floors as insertion-ordered duplicate-free lists
(`setAdd` mirrors `set.add`); the list order stands in for the set's
iteration order wherever Python iterates over a set.  `time.time()` is
passed in explicitly as a `now : ℚ` argument.
-/

namespace ElevatorSim

/-- `Direction` enum from `elevator_simulator.py`. -/
inductive Direction
  | UP
  | DOWN
  | IDLE
deriving DecidableEq, Repr

/-- `ElevatorState` enum from `elevator_simulator.py`. -/
inductive ElevatorState
  | IDLE
  | MOVING
  | LOADING
  | MAINTENANCE
deriving DecidableEq, Repr

/-- `Person` dataclass (`elevator_simulator.py`). -/
structure Person where
  id : ℤ
  current_floor : ℤ
  destination_floor : ℤ
  arrival_time : ℚ
  boarding_time : Option ℚ := none
  visit_duration : Option ℚ := none
  is_leaving : Bool := false
  visit_start_time : Option ℚ := none
deriving DecidableEq, Repr

/-- `Person.direction` property. -/
def Person.direction (p : Person) : Direction :=
  if p.destination_floor > p.current_floor then .UP
  else if p.destination_floor < p.current_floor then .DOWN
  else .IDLE

/-- `Person.wait_time` property.  Python's `if self.boarding_time:` is a
truthiness test: it is `False` both for `None` and for `0.0`. -/
def Person.wait_time (now : ℚ) (p : Person) : ℚ :=
  match p.boarding_time with
  | some t => if t = 0 then now - p.arrival_time else t - p.arrival_time
  | none => now - p.arrival_time

/-- Python truthiness of an `Optional[float]`: `None` and `0.0` are falsy. -/
def truthyQ : Option ℚ → Bool
  | some d => decide (d ≠ 0)
  | none => false

/-- Python `set.add` on an insertion-ordered duplicate-free list. -/
def setAdd (l : List ℤ) (x : ℤ) : List ℤ :=
  if x ∈ l then l else l ++ [x]

/-- `Elevator` class state (`elevator_simulator.py`).  The three floor
sets are kept as insertion-ordered lists. -/
structure Elevator where
  id : ℤ
  capacity : ℕ
  current_floor : ℤ := 1
  direction : Direction := .IDLE
  state : ElevatorState := .IDLE
  passengers : List Person := []
  up_requests : List ℤ := []
  down_requests : List ℤ := []
  destination_floors : List ℤ := []
  total_passengers_served : ℕ := 0
deriving DecidableEq, Repr

/-- `Elevator.__init__` (position 1, idle, empty sets). -/
def mkElevator (i : ℤ) (cap : ℕ) : Elevator :=
  { id := i, capacity := cap }

/-- `Elevator.is_full` property: `len(self.passengers) >= self.capacity`. -/
def Elevator.is_full (e : Elevator) : Bool :=
  decide (e.capacity ≤ e.passengers.length)

/-- `Elevator.passenger_count` property. -/
def Elevator.passenger_count (e : Elevator) : ℕ :=
  e.passengers.length

/-- `Elevator.add_request`. -/
def Elevator.add_request (e : Elevator) (floor : ℤ) (direction : Direction) : Elevator :=
  match direction with
  | .UP => { e with up_requests := setAdd e.up_requests floor }
  | .DOWN => { e with down_requests := setAdd e.down_requests floor }
  | .IDLE => e

/-- `Elevator.add_destination`. -/
def Elevator.add_destination (e : Elevator) (floor : ℤ) : Elevator :=
  { e with destination_floors := setAdd e.destination_floors floor }

/-- `Elevator.board_passenger`: refuse when full, otherwise stamp the
boarding time, append the passenger and record their destination. -/
def Elevator.board_passenger (e : Elevator) (now : ℚ) (p : Person) : Bool × Elevator :=
  if e.is_full then (false, e)
  else
    let p' := { p with boarding_time := some now }
    (true, { (e.add_destination p.destination_floor) with
              passengers := e.passengers ++ [p'] })

/-- `Elevator.unboard_passengers`: drop passengers whose destination is
`floor`, stamp their visit start time, clear the floor from the
destination set. -/
def Elevator.unboard_passengers (e : Elevator) (now : ℚ) (floor : ℤ) :
    List Person × Elevator :=
  let leaving := e.passengers.filter (fun p => p.destination_floor = floor)
  let leaving := leaving.map (fun p =>
    if !p.is_leaving && truthyQ p.visit_duration then
      { p with visit_start_time := some now }
    else p)
  (leaving,
    { e with
      passengers := e.passengers.filter (fun p => p.destination_floor ≠ floor),
      destination_floors := e.destination_floors.erase floor,
      total_passengers_served := e.total_passengers_served + leaving.length })

/-- Python `min(list)` over integers (`none` on the empty list). -/
def listMin : List ℤ → Option ℤ
  | [] => none
  | x :: xs => some (xs.foldl min x)

/-- Python `max(list)` over integers (`none` on the empty list). -/
def listMax : List ℤ → Option ℤ
  | [] => none
  | x :: xs => some (xs.foldl max x)

/-- The loop body of Python `min(xs, key=key)` starting from accumulator
`b`: replace the accumulator only on a strict decrease, so the earliest
minimiser is kept on ties. -/
def pyFoldMin {α β : Type} [LinearOrder β] (key : α → β) (b : α) : List α → α
  | [] => b
  | x :: xs => pyFoldMin key (if key x < key b then x else b) xs

/-- Python `min(list, key=key)`: first element with minimal key, `none`
on the empty list. -/
def pyMinBy {α β : Type} [LinearOrder β] (key : α → β) : List α → Option α
  | [] => none
  | x :: xs => some (pyFoldMin key x xs)

/-- Python `enumerate`, starting at index `i`. -/
def enumL {α : Type} : ℕ → List α → List (ℕ × α)
  | _, [] => []
  | i, x :: xs => (i, x) :: enumL (i + 1) xs

/-- A single boarding/unboarding event on one elevator (the only two
operations that touch the passenger manifest). -/
inductive ElevOp
  | board (now : ℚ) (p : Person)
  | unboard (now : ℚ) (floor : ℤ)

/-- Apply one manifest operation, keeping the resulting elevator. -/
def applyElevOp (e : Elevator) : ElevOp → Elevator
  | .board now p => (e.board_passenger now p).2
  | .unboard now floor => (e.unboard_passengers now floor).2

/-- Run a sequence of boarding/unboarding operations. -/
def runElevOps (e : Elevator) (ops : List ElevOp) : Elevator :=
  ops.foldl applyElevOp e

/-- `Elevator.get_next_stop`.  When moving `UP` (`DOWN`): Python `min`
(`max`) of destination floors and up- (down-) calls strictly above
(below) the current floor.  When `IDLE`, the code first looks *only* at
`destination_floors` (excluding the current floor) and returns the one
nearest to the current floor; only when that comprehension is empty does
it consider the union of up- and down-calls. -/
def Elevator.get_next_stop (e : Elevator) : Option ℤ :=
  let current := e.current_floor
  match e.direction with
  | .UP =>
    listMin (e.destination_floors.filter (fun f => decide (current < f)) ++
             e.up_requests.filter (fun f => decide (current < f)))
  | .DOWN =>
    listMax (e.destination_floors.filter (fun f => decide (f < current)) ++
             e.down_requests.filter (fun f => decide (f < current)))
  | .IDLE =>
    let dcands := e.destination_floors.filter (fun f => decide (f ≠ current))
    if dcands ≠ [] then pyMinBy (fun f => |f - current|) dcands
    else
      pyMinBy (fun f => |f - current|)
        ((e.up_requests ++ e.down_requests).filter (fun f => decide (f ≠ current)))

/-- Concrete example elevators used as evaluation points in witnesses. -/
def exUp : Elevator :=
  { id := 1, capacity := 8, current_floor := 3, direction := .UP,
    state := .MOVING, up_requests := [5], destination_floors := [6, 4] }

/-- A concrete elevator moving down, used as an evaluation point. -/
def exDown : Elevator :=
  { id := 2, capacity := 8, current_floor := 5, direction := .DOWN,
    state := .MOVING, down_requests := [4], destination_floors := [2] }

/-- A concrete idle elevator with a far destination and a near up-call. -/
def exIdle : Elevator :=
  { id := 3, capacity := 8, current_floor := 1, direction := .IDLE,
    state := .IDLE, up_requests := [2], destination_floors := [5] }

/-- `ElevatorConfig` (interfaces.py): the numeric weights consumed by
the scoring strategies.  Only fields the embedded code reads are kept;
defaults are the dataclass defaults. -/
structure Config where
  num_floors : ℤ := 20
  num_elevators : ℤ := 4
  distance_weight : ℚ := 1
  full_penalty : ℚ := 50
  same_direction_bonus : ℚ := -5
  opposite_direction_penalty : ℚ := 20
  load_factor_weight : ℚ := 20
  idle_bonus : ℚ := -8
  enable_load_balancing : Bool := true
deriving DecidableEq, Repr

/-- `NearestCarStrategy._calculate_score` (strategies.py).  A full
elevator scores exactly `full_penalty`; otherwise distance, idle /
same-direction / opposite-direction adjustments and, when enabled, the
load factor.  (Lean's `x / 0 = 0` stands in for Python's
`ZeroDivisionError` on a zero-capacity elevator.) -/
def nearestCarScore (cfg : Config) (e : Elevator) (request_floor : ℤ)
    (direction : Direction) : ℚ :=
  if e.is_full then cfg.full_penalty
  else
    let distance : ℚ := ((|e.current_floor - request_floor| : ℤ) : ℚ)
    let score := distance * cfg.distance_weight
    let score :=
      if e.state = .IDLE then score + cfg.idle_bonus
      else if e.direction = direction ∧
          (e.passenger_count : ℚ) < (e.capacity : ℚ) * (7 / 10) then
        score + cfg.same_direction_bonus
      else if e.direction ≠ .IDLE ∧ e.direction ≠ direction then
        score + cfg.opposite_direction_penalty
      else score
    if cfg.enable_load_balancing then
      score + (e.passenger_count : ℚ) / (e.capacity : ℚ) * cfg.load_factor_weight
    else score

/-- `NearestCarStrategy.assign_elevator`: a left-to-right scan keeping
the first strictly smallest score.  Python starts from `inf`, so with a
nonempty fleet some index is always returned — full elevators included. -/
def nearestCarAssign (cfg : Config) (es : List Elevator) (request_floor : ℤ)
    (direction : Direction) : Option ℕ :=
  (pyMinBy (fun p => nearestCarScore cfg p.2 request_floor direction)
      (enumL 0 es)).map Prod.fst

/-- `LOOKStrategy._calculate_look_score` (advanced_strategies.py). -/
def lookScore (e : Elevator) (request_floor : ℤ) (direction : Direction) : ℚ :=
  let distance : ℚ := ((|e.current_floor - request_floor| : ℤ) : ℚ)
  if e.state = .IDLE then distance * (1 / 2)
  else if e.direction = direction ∧ direction = .UP ∧
      e.current_floor ≤ request_floor then distance * (7 / 10)
  else if e.direction = direction ∧ direction = .DOWN ∧
      request_floor ≤ e.current_floor then distance * (7 / 10)
  else distance * 2 + 100

/-- `LOOKStrategy.assign_elevator`: skip full elevators (`continue`),
keep the first strictly smallest LOOK score among the rest. -/
def lookAssign (es : List Elevator) (request_floor : ℤ)
    (direction : Direction) : Option ℕ :=
  (pyMinBy (fun p => lookScore p.2 request_floor direction)
      ((enumL 0 es).filter (fun p => !p.2.is_full))).map Prod.fst

/-- The pluggable `ElevatorAssignmentStrategy.assign_elevator` interface:
`(elevators, request_floor, direction, config, destination_floor) ↦
optional index`. -/
def Strategy : Type :=
  List Elevator → ℤ → Direction → Config → Option ℤ → Option ℕ

/-- `Building` state (`elevator_simulator.py`): fleet, per-floor waiting
queues split by direction, injected strategy, counters and the visitor
bookkeeping.  Queues are total functions from floor numbers; Python'''s
dict would raise `KeyError` outside `1..num_floors`, and every caller
validates the floor first. -/
structure Building where
  num_floors : ℤ
  elevators : List Elevator
  strategy : Option Strategy := none
  waiting_up : ℤ → List Person
  waiting_down : ℤ → List Person
  total_people_generated : ℤ := 0
  total_people_completed : ℤ := 0
  active_visitors : List (ℤ × Person) := []
  pending_returns : List (ℚ × Person) := []

/-- `Building.calculate_elevator_score`, the fallback scorer used when no
strategy is injected.  Its code is line-for-line the same scoring as
`NearestCarStrategy._calculate_score`, so it is embedded once. -/
def calculate_elevator_score : Config → Elevator → ℤ → Direction → ℚ :=
  nearestCarScore

/-- Mutation of the `i`-th element of a list, mirroring Python'''s
mutation of the elevator object held by the fleet list. -/
def listModify {α : Type} (l : List α) (i : ℕ) (f : α → α) : List α :=
  match l.get? i with
  | none => l
  | some a => l.set i (f a)

/-- `Building.find_best_elevator`, as the index of the chosen elevator
in the fleet list (Python returns the object; object identity in the
fleet corresponds to this index).  The method reads only
`self.strategy` and `self.elevators`, passed here explicitly.
Maintenance elevators are filtered out before the strategy ever sees the
fleet.  An out-of-range strategy index would raise `IndexError` in
Python, aborting the assignment with no state change, which `none`
models. -/
def find_best_idx (cfg : Config) (strat : Option Strategy)
    (es : List Elevator) (floor : ℤ) (direction : Direction)
    (destination_floor : Option ℤ) : Option ℕ :=
  let available := (enumL 0 es).filter
    (fun p => decide (p.2.state ≠ .MAINTENANCE))
  if available.isEmpty then none
  else
    match strat with
    | some stratF =>
      match stratF (available.map Prod.snd) floor direction cfg
          destination_floor with
      | none => none
      | some idx => (available.get? idx).map Prod.fst
    | none =>
      (pyMinBy (fun p => calculate_elevator_score cfg p.2 floor direction)
        available).map Prod.fst

/-- `Building.assign_elevator_to_request` on the fleet (the method reads
and writes only `self.elevators`, and reads `self.strategy`): first check
*every* elevator'''s pending call sets; if some elevator already holds this
`(floor, direction)` call, return with no change, otherwise add the call
to the elevator chosen by `find_best_elevator` (if any). -/
def assign_elevator_to_request (cfg : Config) (strat : Option Strategy)
    (es : List Elevator) (floor : ℤ) (direction : Direction)
    (destination_floor : Option ℤ) : List Elevator :=
  if es.any (fun e =>
      (decide (direction = .UP) && decide (floor ∈ e.up_requests)) ||
      (decide (direction = .DOWN) && decide (floor ∈ e.down_requests))) then es
  else
    match find_best_idx cfg strat es floor direction destination_floor with
    | some i => listModify es i (fun e => e.add_request floor direction)
    | none => es

/-- `Building.add_person_request`: enqueue the person in the directional
waiting queue of their floor, dispatch the call, and schedule the return
trip for visitors with a (truthy) dwell duration. -/
def add_person_request (cfg : Config) (now : ℚ) (b : Building) (p : Person) :
    Building :=
  let floor := p.current_floor
  let dir := p.direction
  let b1 :=
    match dir with
    | .UP => { b with waiting_up := fun f =>
        if f = floor then b.waiting_up f ++ [p] else b.waiting_up f }
    | .DOWN => { b with waiting_down := fun f =>
        if f = floor then b.waiting_down f ++ [p] else b.waiting_down f }
    | .IDLE => b
  let b2 :=
    { b1 with
      elevators := assign_elevator_to_request cfg b1.strategy b1.elevators
        floor dir (some p.destination_floor) }
  if !p.is_leaving && truthyQ p.visit_duration &&
      decide (p.destination_floor ≠ 1) then
    { b2 with
      pending_returns :=
        b2.pending_returns ++ [(now + p.visit_duration.getD 0, p)],
      active_visitors := b2.active_visitors ++ [(p.id, p)] }
  else b2

/-- `SimulationEngine.add_manual_request` (simulation_engine.py):
reject out-of-range or equal floors before touching any state, otherwise
construct the `Person`, enqueue and dispatch it, and bump the generated
counter by one. -/
def add_manual_request (cfg : Config) (now : ℚ) (b : Building)
    (from_floor to_floor : ℤ) : Bool × Building :=
  if ¬(1 ≤ from_floor ∧ from_floor ≤ b.num_floors ∧
       1 ≤ to_floor ∧ to_floor ≤ b.num_floors) then (false, b)
  else if from_floor = to_floor then (false, b)
  else
    let person : Person :=
      { id := b.total_people_generated + 1, current_floor := from_floor,
        destination_floor := to_floor, arrival_time := now }
    let b1 := add_person_request cfg now b person
    (true, { b1 with total_people_generated := b1.total_people_generated + 1 })

/-- A fully loaded idle elevator (capacity 0 is "at capacity" with an
empty manifest). -/
def exFull : Elevator := mkElevator 9 0

/-- An elevator parked in Maintenance. -/
def exMaint : Elevator :=
  { id := 4, capacity := 8, state := .MAINTENANCE }

/-- Whether elevator `e` holds the pending call `(floor, dir)` in its
request sets. -/
def holdsCall (e : Elevator) (floor : ℤ) (dir : Direction) : Bool :=
  match dir with
  | .UP => decide (floor ∈ e.up_requests)
  | .DOWN => decide (floor ∈ e.down_requests)
  | .IDLE => false

/-- Number of elevators in the fleet holding the call `(floor, dir)`. -/
def countHolding (es : List Elevator) (floor : ℤ) (dir : Direction) : ℕ :=
  (es.filter (fun e => holdsCall e floor dir)).length

/-- The single-assignment invariant: every `(floor, direction)` call is
pending on at most one elevator of the fleet. -/
def AtMostOne (es : List Elevator) : Prop :=
  ∀ (floor : ℤ) (dir : Direction), countHolding es floor dir ≤ 1

/-- One external dispatch call against the Building. -/
inductive BuildingCall
  | assignCall (floor : ℤ) (dir : Direction) (dest : Option ℤ)
  | personCall (now : ℚ) (p : Person)

/-- Apply one dispatch call to the Building. -/
def applyCall (cfg : Config) (b : Building) : BuildingCall → Building
  | .assignCall floor dir dest =>
    { b with elevators :=
        assign_elevator_to_request cfg b.strategy b.elevators floor dir dest }
  | .personCall now p => add_person_request cfg now b p

/-- Run a sequence of dispatch calls against the Building. -/
def runCalls (cfg : Config) (b : Building) (calls : List BuildingCall) :
    Building :=
  calls.foldl (applyCall cfg) b

/-- A building with two fresh elevators and no injected strategy. -/
def exB2 : Building :=
  { num_floors := 10, elevators := [mkElevator 1 8, mkElevator 2 8],
    waiting_up := fun _ => [], waiting_down := fun _ => [] }

/-- A building in which elevator 2 already holds the up-call for floor 5. -/
def exBheld : Building :=
  { num_floors := 10,
    elevators := [mkElevator 1 8, { mkElevator 2 8 with up_requests := [5] }],
    waiting_up := fun _ => [], waiting_down := fun _ => [] }

/-- A person walking up from floor 3 to floor 7. -/
def exPerson : Person :=
  { id := 1, current_floor := 3, destination_floor := 7, arrival_time := 0 }

/-- The `Person` constructed by `add_manual_request`. -/
def manualPerson (b : Building) (now : ℚ) (from_floor to_floor : ℤ) : Person :=
  { id := b.total_people_generated + 1, current_floor := from_floor,
    destination_floor := to_floor, arrival_time := now }

/-- The retry loop of `RoundRobinStrategy.assign_elevator`: advance the
cursor to `(last + 1) % N` (Python floor-mod on a positive modulus agrees
with `Int.emod`), return it if that elevator is not full, else retry, at
most `N` times.  The `getD` default is never reached: the index is always
in range for a nonempty fleet, and for an empty fleet the loop body never
runs. -/
def rrGo (es : List Elevator) : ℕ → ℤ → Option ℕ × ℤ
  | 0, cursor => (none, cursor)
  | k + 1, cursor =>
    let c' := (cursor + 1) % (es.length : ℤ)
    if (es.getD c'.toNat (mkElevator 0 0)).is_full then rrGo es k c'
    else (some c'.toNat, c')

/-- `RoundRobinStrategy.assign_elevator`: the persistent state is the
stored cursor `last_assigned`; the result pairs the optional index with
the updated cursor. -/
def rrAssign (es : List Elevator) (cursor : ℤ) : Option ℕ × ℤ :=
  rrGo es es.length cursor

/-- `n` consecutive RoundRobin calls against a fixed fleet, collecting
the returned indices and threading the cursor. -/
def runRR (es : List Elevator) : ℕ → ℤ → List (Option ℕ) × ℤ
  | 0, cursor => ([], cursor)
  | n + 1, cursor =>
    let r := rrAssign es cursor
    let rest := runRR es n r.2
    (r.1 :: rest.1, rest.2)

/-- A fleet of three fresh elevators. -/
def exFleet3 : List Elevator :=
  [mkElevator 1 8, mkElevator 2 8, mkElevator 3 8]

/-- One entry of `MLBasedStrategy.assignment_history`
(advanced_strategies.py `_record_assignment`). -/
structure MLAssignment where
  elevator_idx : ℕ
  request_floor : ℤ
  elevator_floor : ℤ
  elevator_state : ElevatorState
  elevator_load : ℚ
deriving DecidableEq, Repr

/-- The four learned weights of `MLBasedStrategy.strategy_weights`. -/
structure MLWeights where
  nearest : ℚ
  same_direction : ℚ
  idle_preference : ℚ
  load_balanced : ℚ
deriving DecidableEq, Repr

/-- Mutable state of `MLBasedStrategy` (`learning_rate` is set to `0.1`
in `__init__` and never written again, so it is a fixed constant here). -/
structure MLState where
  assignment_history : List MLAssignment
  strategy_weights : MLWeights
deriving DecidableEq, Repr

/-- Initial `MLBasedStrategy` state: empty history, all weights `1.0`. -/
def mkMLState : MLState :=
  { assignment_history := [], strategy_weights := ⟨1, 1, 1, 1⟩ }

/-- `MLBasedStrategy.update_from_feedback`: reward `1.0` below 10
seconds, `0.5` below 30, `-0.5` at 30 or above; the reward (scaled by the
learning rate `0.1`) is added to each weight implicated in the stored
assignment (idle-preference when the elevator was Idle, nearest when the
pickup was under 5 floors away, load-balanced when the elevator was under
half load; the same-direction weight is never updated), then every weight
is clamped below at `0.1`. -/
def update_from_feedback (s : MLState) (wait_time : ℚ) (assignment_idx : ℕ) :
    MLState :=
  if s.assignment_history.length ≤ assignment_idx then s
  else
    match s.assignment_history.get? assignment_idx with
    | none => s
    | some a =>
      let reward : ℚ :=
        if wait_time < 10 then 1 else if wait_time < 30 then 1 / 2 else -(1 / 2)
      let w := s.strategy_weights
      let w := if a.elevator_state = .IDLE then
          { w with idle_preference := w.idle_preference + (1 / 10) * reward }
        else w
      let w := if |a.elevator_floor - a.request_floor| < 5 then
          { w with nearest := w.nearest + (1 / 10) * reward }
        else w
      let w := if a.elevator_load < 1 / 2 then
          { w with load_balanced := w.load_balanced + (1 / 10) * reward }
        else w
      { s with strategy_weights :=
          { nearest := max (1 / 10) w.nearest,
            same_direction := max (1 / 10) w.same_direction,
            idle_preference := max (1 / 10) w.idle_preference,
            load_balanced := max (1 / 10) w.load_balanced } }

/-- A history entry whose elevator was Idle, far away and heavily
loaded, so only the idle-preference weight is implicated. -/
def exAssignIdle : MLAssignment :=
  { elevator_idx := 0, request_floor := 1, elevator_floor := 9,
    elevator_state := .IDLE, elevator_load := 1 }

/-- An ML state with default weights and one recorded assignment. -/
def exMLState : MLState :=
  { assignment_history := [exAssignIdle], strategy_weights := ⟨1, 1, 1, 1⟩ }

/-- Grouping state of `DestinationDispatchStrategy`:
`elevator_destinations` maps an elevator index to its registered
destination floors.  A `defaultdict` key that is absent behaves exactly
like one holding the empty list in `_find_grouped_elevator`, so the
state is a total function. -/
structure DDState where
  elevator_destinations : ℕ → List ℤ

/-- The loop predicate of `_find_grouped_elevator`: non-full, some
registered destination within 3 floors of the new destination, and idle
or moving in the request direction. -/
def ddGroupPred (dd : DDState) (destination_floor : ℤ)
    (direction : Direction) (p : ℕ × Elevator) : Bool :=
  !p.2.is_full &&
  (dd.elevator_destinations p.1).any
    (fun x => decide (|x - destination_floor| ≤ 3)) &&
  (decide (p.2.direction = direction) || decide (p.2.state = .IDLE))

/-- `DestinationDispatchStrategy._find_grouped_elevator`: the first
elevator index satisfying `ddGroupPred`. -/
def ddFindGrouped (dd : DDState) (es : List Elevator)
    (destination_floor : ℤ) (direction : Direction) : Option ℕ :=
  ((enumL 0 es).find? (ddGroupPred dd destination_floor direction)).map
    Prod.fst

/-- `DestinationDispatchStrategy._assign_nearest`: nearest non-full
elevator, preferring idle ones (Python `min` keeps the first on ties). -/
def ddAssignNearest (es : List Elevator) (request_floor : ℤ) : Option ℕ :=
  let available := (enumL 0 es).filter (fun p => !p.2.is_full)
  if available.isEmpty then none
  else
    let idle := available.filter (fun p => decide (p.2.state = .IDLE))
    if !idle.isEmpty then
      (pyMinBy (fun p => |p.2.current_floor - request_floor|) idle).map
        Prod.fst
    else
      (pyMinBy (fun p => |p.2.current_floor - request_floor|) available).map
        Prod.fst

/-- `DestinationDispatchStrategy.assign_elevator`: group with an
elevator already bound for a nearby destination if one exists, else fall
back to nearest-available. -/
def ddAssign (dd : DDState) (es : List Elevator) (request_floor : ℤ)
    (direction : Direction) (destination_floor : Option ℤ) : Option ℕ :=
  match destination_floor with
  | none => ddAssignNearest es request_floor
  | some d =>
    match ddFindGrouped dd es d direction with
    | some i => some i
    | none => ddAssignNearest es request_floor

/-- Elevator `i` qualifies for destination grouping. -/
def ddQualifies (dd : DDState) (es : List Elevator) (d : ℤ)
    (direction : Direction) (i : ℕ) : Prop :=
  ∃ e, es.get? i = some e ∧ e.is_full = false ∧
    (∃ x ∈ dd.elevator_destinations i, |x - d| ≤ 3) ∧
    (e.direction = direction ∨ e.state = .IDLE)

/-- The grouping state of the worked example: elevator 0 is registered
for destination 20, elevator 1 for nothing. -/
def exDD : DDState :=
  { elevator_destinations := fun i => if i = 0 then [20] else [] }

/-- Elevator already moving up at floor 10 with a grouped destination. -/
def exGrouped : Elevator :=
  { id := 1, capacity := 8, current_floor := 10, direction := .UP,
    state := .MOVING }

/-- The example fleet: the grouped elevator and a nearer idle one. -/
def exDDFleet : List Elevator := [exGrouped, mkElevator 2 8]

theorem foldl_min_mem (l : List ℤ) (b : ℤ) : l.foldl min b ∈ b :: l := by
  induction l generalizing b with
  | nil => simp
  | cons x xs ih =>
    rw [List.foldl_cons]
    have h := ih (min b x)
    rcases List.mem_cons.1 h with h1 | h1
    · rcases min_choice b x with he | he <;> rw [h1.trans he] <;> simp
    · simp [h1]

theorem foldl_min_le (l : List ℤ) (b : ℤ) : ∀ y ∈ b :: l, l.foldl min b ≤ y := by
  induction l generalizing b with
  | nil => intro y hy; simp at hy; simp [hy]
  | cons x xs ih =>
    intro y hy
    rw [List.foldl_cons]
    rcases List.mem_cons.1 hy with h1 | h1
    · rw [h1]
      exact le_trans (ih (min b x) (min b x) (List.mem_cons_self _ _)) (min_le_left _ _)
    · rcases List.mem_cons.1 h1 with h2 | h2
      · rw [h2]
        exact le_trans (ih (min b x) (min b x) (List.mem_cons_self _ _)) (min_le_right _ _)
      · exact ih (min b x) y (by simp [h2])

theorem listMin_spec (l : List ℤ) (m : ℤ) :
    listMin l = some m ↔ m ∈ l ∧ ∀ y ∈ l, m ≤ y := by
  cases l with
  | nil => simp [listMin]
  | cons x xs =>
    simp only [listMin, Option.some.injEq]
    constructor
    · rintro rfl
      exact ⟨foldl_min_mem xs x, foldl_min_le xs x⟩
    · rintro ⟨hm, hle⟩
      have h1 : xs.foldl min x ≤ m := foldl_min_le xs x m hm
      have h2 : m ≤ xs.foldl min x := hle _ (foldl_min_mem xs x)
      omega

theorem foldl_max_mem (l : List ℤ) (b : ℤ) : l.foldl max b ∈ b :: l := by
  induction l generalizing b with
  | nil => simp
  | cons x xs ih =>
    rw [List.foldl_cons]
    have h := ih (max b x)
    rcases List.mem_cons.1 h with h1 | h1
    · rcases max_choice b x with he | he <;> rw [h1.trans he] <;> simp
    · simp [h1]

theorem foldl_max_ge (l : List ℤ) (b : ℤ) : ∀ y ∈ b :: l, y ≤ l.foldl max b := by
  induction l generalizing b with
  | nil => intro y hy; simp at hy; simp [hy]
  | cons x xs ih =>
    intro y hy
    rw [List.foldl_cons]
    rcases List.mem_cons.1 hy with h1 | h1
    · rw [h1]
      exact le_trans (le_max_left _ _) (ih (max b x) (max b x) (List.mem_cons_self _ _))
    · rcases List.mem_cons.1 h1 with h2 | h2
      · rw [h2]
        exact le_trans (le_max_right _ _) (ih (max b x) (max b x) (List.mem_cons_self _ _))
      · exact ih (max b x) y (by simp [h2])

theorem listMax_spec (l : List ℤ) (m : ℤ) :
    listMax l = some m ↔ m ∈ l ∧ ∀ y ∈ l, y ≤ m := by
  cases l with
  | nil => simp [listMax]
  | cons x xs =>
    simp only [listMax, Option.some.injEq]
    constructor
    · rintro rfl
      exact ⟨foldl_max_mem xs x, foldl_max_ge xs x⟩
    · rintro ⟨hm, hle⟩
      have h1 : m ≤ xs.foldl max x := foldl_max_ge xs x m hm
      have h2 : xs.foldl max x ≤ m := hle _ (foldl_max_mem xs x)
      omega

theorem pyFoldMin_mem {α β : Type} [LinearOrder β] (key : α → β) (l : List α)
    (b : α) : pyFoldMin key b l ∈ b :: l := by
  induction l generalizing b with
  | nil => simp [pyFoldMin]
  | cons x xs ih =>
    rw [pyFoldMin]
    have h := ih (if key x < key b then x else b)
    rcases List.mem_cons.1 h with h1 | h1
    · rw [h1]
      split <;> simp
    · simp [h1]

theorem pyFoldMin_le {α β : Type} [LinearOrder β] (key : α → β) (l : List α)
    (b : α) : ∀ y ∈ b :: l, key (pyFoldMin key b l) ≤ key y := by
  induction l generalizing b with
  | nil => intro y hy; simp at hy; simp [pyFoldMin, hy]
  | cons x xs ih =>
    intro y hy
    rw [pyFoldMin]
    have hbase : key (if key x < key b then x else b) ≤ key b := by
      split <;> simp_all [le_of_lt]
    have hbase2 : key (if key x < key b then x else b) ≤ key x := by
      split
      · exact le_rfl
      · exact le_of_not_lt (by assumption)
    rcases List.mem_cons.1 hy with h1 | h1
    · subst h1
      exact le_trans (ih _ _ (by simp)) hbase
    · rcases List.mem_cons.1 h1 with h2 | h2
      · subst h2
        exact le_trans (ih _ _ (by simp)) hbase2
      · exact ih _ y (by simp [h2])

theorem pyMinBy_mem {α β : Type} [LinearOrder β] (key : α → β) (l : List α)
    (m : α) (h : pyMinBy key l = some m) : m ∈ l ∧ ∀ y ∈ l, key m ≤ key y := by
  cases l with
  | nil => simp [pyMinBy] at h
  | cons x xs =>
    simp only [pyMinBy, Option.some.injEq] at h
    subst h
    exact ⟨pyFoldMin_mem key xs x, pyFoldMin_le key xs x⟩

theorem pyMinBy_isSome {α β : Type} [LinearOrder β] (key : α → β) (l : List α)
    (h : l ≠ []) : ∃ m, pyMinBy key l = some m := by
  cases l with
  | nil => simp at h
  | cons x xs => exact ⟨pyFoldMin key x xs, rfl⟩

theorem mem_enumL {α : Type} (l : List α) (i j : ℕ) (a : α) :
    (j, a) ∈ enumL i l ↔ ∃ k, j = i + k ∧ l.get? k = some a := by
  induction l generalizing i with
  | nil => simp [enumL]
  | cons x xs ih =>
    simp only [enumL, List.mem_cons, Prod.mk.injEq, ih]
    constructor
    · rintro (⟨rfl, rfl⟩ | ⟨k, rfl, hk⟩)
      · exact ⟨0, by simp⟩
      · exact ⟨k + 1, by omega, by simpa using hk⟩
    · rintro ⟨k, rfl, hk⟩
      cases k with
      | zero => left; simp at hk; simp [hk]
      | succ k => right; exact ⟨k, by omega, by simpa using hk⟩

theorem applyElevOp_capacity (e : Elevator) (op : ElevOp) :
    (applyElevOp e op).capacity = e.capacity := by
  cases op with
  | board now p =>
    simp only [applyElevOp, Elevator.board_passenger]
    split <;> simp [Elevator.add_destination]
  | unboard now floor =>
    simp [applyElevOp, Elevator.unboard_passengers]

theorem applyElevOp_length_le (e : Elevator) (op : ElevOp)
    (h : e.passengers.length ≤ e.capacity) :
    (applyElevOp e op).passengers.length ≤ (applyElevOp e op).capacity := by
  rw [applyElevOp_capacity]
  cases op with
  | board now p =>
    simp only [applyElevOp, Elevator.board_passenger]
    cases hf : e.is_full with
    | true => simpa using h
    | false =>
      have hlt : e.passengers.length < e.capacity := by
        have hnot : ¬ e.capacity ≤ e.passengers.length := by
          intro hle
          simp [Elevator.is_full, hle] at hf
        omega
      simp only [Bool.false_eq_true, if_false, Elevator.add_destination]
      simp only [List.length_append, List.length_singleton]
      omega
  | unboard now floor =>
    simp only [applyElevOp, Elevator.unboard_passengers]
    calc (e.passengers.filter _).length ≤ e.passengers.length :=
          List.length_filter_le _ _
      _ ≤ e.capacity := h

theorem runElevOps_length_le (e : Elevator) (ops : List ElevOp)
    (h : e.passengers.length ≤ e.capacity) :
    (runElevOps e ops).passengers.length ≤ (runElevOps e ops).capacity := by
  induction ops generalizing e with
  | nil => simpa [runElevOps]
  | cons op ops ih =>
    rw [runElevOps, List.foldl_cons]
    exact ih _ (applyElevOp_length_le e op h)

theorem runElevOps_capacity (e : Elevator) (ops : List ElevOp) :
    (runElevOps e ops).capacity = e.capacity := by
  induction ops generalizing e with
  | nil => rfl
  | cons op ops ih =>
    rw [runElevOps, List.foldl_cons]
    rw [show List.foldl applyElevOp (applyElevOp e op) ops
          = runElevOps (applyElevOp e op) ops from rfl]
    rw [ih, applyElevOp_capacity]

/-- **C1.** Capacity invariant: `board_passenger` returns `False` and leaves
the elevator unchanged when the manifest is at capacity, appends exactly one
passenger on success, and every sequence of `board_passenger` /
`unboard_passengers` operations starting from a freshly constructed elevator
(empty manifest) keeps the manifest size at most the capacity. -/
theorem C1_capacity_invariant :
    (∀ (e : Elevator) (now : ℚ) (p : Person),
      e.is_full = true → e.board_passenger now p = (false, e)) ∧
    (∀ (e : Elevator) (now : ℚ) (p : Person),
      e.is_full = false →
        (e.board_passenger now p).1 = true ∧
        (e.board_passenger now p).2.passengers
          = e.passengers ++ [{ p with boarding_time := some now }]) ∧
    (∀ (i : ℤ) (cap : ℕ) (ops : List ElevOp),
      (runElevOps (mkElevator i cap) ops).passengers.length ≤ cap) := by
  refine ⟨?_, ?_, ?_⟩
  · intro e now p hf
    simp [Elevator.board_passenger, hf]
  · intro e now p hf
    constructor
    · simp [Elevator.board_passenger, hf]
    · simp [Elevator.board_passenger, hf, Elevator.add_destination]
  · intro i cap ops
    have h := runElevOps_length_le (mkElevator i cap) ops (by simp [mkElevator])
    have hc : (runElevOps (mkElevator i cap) ops).capacity = cap :=
      runElevOps_capacity (mkElevator i cap) ops
    omega

/-- Witness for C1: a capacity-0 elevator rejects boarding unchanged, a
capacity-2 elevator boards one passenger, and a concrete operation sequence
never exceeds capacity 1. -/
theorem C1_capacity_invariant_witness :
    ((mkElevator 1 0).board_passenger 5 (⟨7, 1, 3, 0, none, none, false, none⟩) =
       (false, mkElevator 1 0)) ∧
    (((mkElevator 1 2).board_passenger 5 (⟨7, 1, 3, 0, none, none, false, none⟩)).1 = true) ∧
    ((runElevOps (mkElevator 1 1)
        [.board 5 ⟨7, 1, 3, 0, none, none, false, none⟩,
         .board 6 ⟨8, 1, 4, 0, none, none, false, none⟩]).passengers.length ≤ 1) := by
  refine ⟨?_, ?_, ?_⟩
  · exact C1_capacity_invariant.1 (mkElevator 1 0) 5 _ (by decide)
  · exact (C1_capacity_invariant.2.1 (mkElevator 1 2) 5 _ (by decide)).1
  · exact C1_capacity_invariant.2.2 1 1 _

/-- **C5 counterexample.** The claim says `wait_time` equals
`boarding_time - arrival_time` whenever `boarding_time` is set.  For a
person with `boarding_time = some 0` (set!) and `arrival_time = 1`, at
`now = 2` the code returns `now - arrival = 1`, not `0 - 1 = -1`:
Python's `if self.boarding_time:` treats the float `0.0` as unset. -/
theorem C5_wait_time_counterexample :
    (⟨1, 1, 3, 1, some 0, none, false, none⟩ : Person).boarding_time = some 0 ∧
    Person.wait_time 2 ⟨1, 1, 3, 1, some 0, none, false, none⟩ = 1 ∧
    (0 : ℚ) - 1 ≠ 1 := by
  refine ⟨rfl, ?_, by norm_num⟩
  simp only [Person.wait_time]
  norm_num

/-- **C5 (amended).** `wait_time` equals boarding time minus arrival time
whenever the person has a *nonzero* boarding time recorded, and equals the
current time minus arrival time otherwise — both when `boarding_time` is
unset and in the corner case `boarding_time = 0.0`, which Python's
truthiness test conflates with unset. -/
theorem C5_wait_time_amended (now : ℚ) (p : Person) :
    (∀ t, p.boarding_time = some t → t ≠ 0 →
        p.wait_time now = t - p.arrival_time) ∧
    (p.boarding_time = none → p.wait_time now = now - p.arrival_time) ∧
    (p.boarding_time = some 0 → p.wait_time now = now - p.arrival_time) := by
  refine ⟨?_, ?_, ?_⟩
  · intro t ht hnz
    simp [Person.wait_time, ht, hnz]
  · intro ht
    simp [Person.wait_time, ht]
  · intro ht
    simp [Person.wait_time, ht]

/-- Witness for the amended C5 at concrete persons: one boarded at time 5,
one never boarded, one with the literal-zero boarding time. -/
theorem C5_wait_time_amended_witness :
    Person.wait_time 9 ⟨1, 1, 3, 2, some 5, none, false, none⟩ = 3 ∧
    Person.wait_time 9 ⟨2, 1, 3, 2, none, none, false, none⟩ = 7 ∧
    Person.wait_time 9 ⟨3, 1, 3, 2, some 0, none, false, none⟩ = 7 := by
  refine ⟨?_, ?_, ?_⟩
  · rw [(C5_wait_time_amended 9 ⟨1, 1, 3, 2, some 5, none, false, none⟩).1 5 rfl
        (by norm_num)]
    norm_num
  · rw [(C5_wait_time_amended 9 ⟨2, 1, 3, 2, none, none, false, none⟩).2.1 rfl]
    norm_num
  · rw [(C5_wait_time_amended 9 ⟨3, 1, 3, 2, some 0, none, false, none⟩).2.2 rfl]
    norm_num

/-- **C4 counterexample.** The claim says that when idle, `get_next_stop`
returns the floor with smallest absolute distance among *all* destinations
and calls.  For an idle elevator at floor 1 with internal destination 5 and
an up-call at floor 2, the code returns 5 (destinations are consulted
first and the calls ignored), although the pending call floor 2 is
strictly closer. -/
theorem C4_next_stop_counterexample :
    exIdle.get_next_stop = some 5 ∧ (2 : ℤ) ∈ exIdle.up_requests ∧
    |(2 : ℤ) - exIdle.current_floor| < |(5 : ℤ) - exIdle.current_floor| := by
  refine ⟨by decide, by decide, by decide⟩

/-- **C4 (amended).** `get_next_stop` returns, when moving `UP`, the
minimum floor among destinations and up-calls strictly above the current
floor, and when moving `DOWN`, the maximum among destinations and
down-calls strictly below it (`none` when no such floor exists).  When
`IDLE`, destination floors take priority over calls: if some destination
differs from the current floor, the result is a destination floor at
minimal absolute distance from the current floor, and the calls
are ignored; only when no such destination exists is the result a call
floor at minimal absolute distance (`none` when there is none). -/
theorem C4_next_stop_amended (e : Elevator) :
    (e.direction = .UP → ∀ m : ℤ,
      (e.get_next_stop = some m ↔
        (m ∈ e.destination_floors ∨ m ∈ e.up_requests) ∧ e.current_floor < m ∧
        ∀ f, (f ∈ e.destination_floors ∨ f ∈ e.up_requests) →
          e.current_floor < f → m ≤ f)) ∧
    (e.direction = .DOWN → ∀ m : ℤ,
      (e.get_next_stop = some m ↔
        (m ∈ e.destination_floors ∨ m ∈ e.down_requests) ∧ m < e.current_floor ∧
        ∀ f, (f ∈ e.destination_floors ∨ f ∈ e.down_requests) →
          f < e.current_floor → f ≤ m)) ∧
    (e.direction = .IDLE →
      ((∃ f ∈ e.destination_floors, f ≠ e.current_floor) →
        ∃ m, e.get_next_stop = some m ∧ m ∈ e.destination_floors ∧
          m ≠ e.current_floor ∧
          ∀ f ∈ e.destination_floors, f ≠ e.current_floor →
            |m - e.current_floor| ≤ |f - e.current_floor|) ∧
      ((∀ f ∈ e.destination_floors, f = e.current_floor) →
        (∃ f ∈ e.up_requests ++ e.down_requests, f ≠ e.current_floor) →
        ∃ m, e.get_next_stop = some m ∧ m ∈ e.up_requests ++ e.down_requests ∧
          m ≠ e.current_floor ∧
          ∀ f ∈ e.up_requests ++ e.down_requests, f ≠ e.current_floor →
            |m - e.current_floor| ≤ |f - e.current_floor|) ∧
      ((∀ f ∈ e.destination_floors, f = e.current_floor) →
        (∀ f ∈ e.up_requests ++ e.down_requests, f = e.current_floor) →
        e.get_next_stop = none)) := by
  refine ⟨?_, ?_, ?_⟩
  · intro hdir m
    simp only [Elevator.get_next_stop, hdir]
    rw [listMin_spec]
    constructor
    · rintro ⟨hm, hle⟩
      rcases List.mem_append.1 hm with h | h
      · have h' := List.mem_filter.1 h
        refine ⟨Or.inl h'.1, by simpa using h'.2, ?_⟩
        intro f hf hgt
        apply hle
        rcases hf with hf | hf
        · exact List.mem_append.2 (Or.inl (List.mem_filter.2 ⟨hf, by simpa⟩))
        · exact List.mem_append.2 (Or.inr (List.mem_filter.2 ⟨hf, by simpa⟩))
      · have h' := List.mem_filter.1 h
        refine ⟨Or.inr h'.1, by simpa using h'.2, ?_⟩
        intro f hf hgt
        apply hle
        rcases hf with hf | hf
        · exact List.mem_append.2 (Or.inl (List.mem_filter.2 ⟨hf, by simpa⟩))
        · exact List.mem_append.2 (Or.inr (List.mem_filter.2 ⟨hf, by simpa⟩))
    · rintro ⟨hm, hgt, hle⟩
      constructor
      · rcases hm with hm | hm
        · exact List.mem_append.2 (Or.inl (List.mem_filter.2 ⟨hm, by simpa⟩))
        · exact List.mem_append.2 (Or.inr (List.mem_filter.2 ⟨hm, by simpa⟩))
      · intro y hy
        rcases List.mem_append.1 hy with h | h
        · have h' := List.mem_filter.1 h
          exact hle y (Or.inl h'.1) (by simpa using h'.2)
        · have h' := List.mem_filter.1 h
          exact hle y (Or.inr h'.1) (by simpa using h'.2)
  · intro hdir m
    simp only [Elevator.get_next_stop, hdir]
    rw [listMax_spec]
    constructor
    · rintro ⟨hm, hle⟩
      rcases List.mem_append.1 hm with h | h
      · have h' := List.mem_filter.1 h
        refine ⟨Or.inl h'.1, by simpa using h'.2, ?_⟩
        intro f hf hlt
        apply hle
        rcases hf with hf | hf
        · exact List.mem_append.2 (Or.inl (List.mem_filter.2 ⟨hf, by simpa⟩))
        · exact List.mem_append.2 (Or.inr (List.mem_filter.2 ⟨hf, by simpa⟩))
      · have h' := List.mem_filter.1 h
        refine ⟨Or.inr h'.1, by simpa using h'.2, ?_⟩
        intro f hf hlt
        apply hle
        rcases hf with hf | hf
        · exact List.mem_append.2 (Or.inl (List.mem_filter.2 ⟨hf, by simpa⟩))
        · exact List.mem_append.2 (Or.inr (List.mem_filter.2 ⟨hf, by simpa⟩))
    · rintro ⟨hm, hlt, hle⟩
      constructor
      · rcases hm with hm | hm
        · exact List.mem_append.2 (Or.inl (List.mem_filter.2 ⟨hm, by simpa⟩))
        · exact List.mem_append.2 (Or.inr (List.mem_filter.2 ⟨hm, by simpa⟩))
      · intro y hy
        rcases List.mem_append.1 hy with h | h
        · have h' := List.mem_filter.1 h
          exact hle y (Or.inl h'.1) (by simpa using h'.2)
        · have h' := List.mem_filter.1 h
          exact hle y (Or.inr h'.1) (by simpa using h'.2)
  · intro hdir
    refine ⟨?_, ?_, ?_⟩
    · rintro ⟨f0, hf0, hne0⟩
      simp only [Elevator.get_next_stop, hdir]
      have hcand : f0 ∈ e.destination_floors.filter
          (fun f => decide (f ≠ e.current_floor)) :=
        List.mem_filter.2 ⟨hf0, by simpa⟩
      have hnonnil : e.destination_floors.filter
          (fun f => decide (f ≠ e.current_floor)) ≠ [] :=
        List.ne_nil_of_mem hcand
      rw [if_pos hnonnil]
      obtain ⟨m, hm⟩ := pyMinBy_isSome (fun f => |f - e.current_floor|) _ hnonnil
      obtain ⟨hmem, hle⟩ := pyMinBy_mem _ _ _ hm
      have h' := List.mem_filter.1 hmem
      refine ⟨m, hm, h'.1, by simpa using h'.2, ?_⟩
      intro f hf hne
      exact hle f (List.mem_filter.2 ⟨hf, by simpa⟩)
    · intro hall ⟨f0, hf0, hne0⟩
      simp only [Elevator.get_next_stop, hdir]
      have hdnil : e.destination_floors.filter
          (fun f => decide (f ≠ e.current_floor)) = [] := by
        rw [List.filter_eq_nil_iff]
        intro f hf
        simpa using hall f hf
      rw [if_neg (not_not_intro hdnil)]
      have hcand : f0 ∈ (e.up_requests ++ e.down_requests).filter
          (fun f => decide (f ≠ e.current_floor)) :=
        List.mem_filter.2 ⟨hf0, by simpa⟩
      obtain ⟨m, hm⟩ := pyMinBy_isSome (fun f => |f - e.current_floor|) _
        (List.ne_nil_of_mem hcand)
      obtain ⟨hmem, hle⟩ := pyMinBy_mem _ _ _ hm
      have h' := List.mem_filter.1 hmem
      refine ⟨m, hm, h'.1, by simpa using h'.2, ?_⟩
      intro f hf hne
      exact hle f (List.mem_filter.2 ⟨hf, by simpa⟩)
    · intro hall1 hall2
      simp only [Elevator.get_next_stop, hdir]
      have hdnil : e.destination_floors.filter
          (fun f => decide (f ≠ e.current_floor)) = [] := by
        rw [List.filter_eq_nil_iff]
        intro f hf
        simpa using hall1 f hf
      have hrnil : (e.up_requests ++ e.down_requests).filter
          (fun f => decide (f ≠ e.current_floor)) = [] := by
        rw [List.filter_eq_nil_iff]
        intro f hf
        simpa using hall2 f hf
      rw [if_neg (not_not_intro hdnil)]
      rw [hrnil]
      rfl

/-- Witness for the amended C4 on three concrete elevators, one per
direction: moving up at floor 3 with destinations `[6, 4]` and up-call 5
stops next at 4; moving down at floor 5 with destination 2 and down-call
4 stops next at 4; idle at floor 1 with destination 5 and up-call 2
stops next at 5. -/
theorem C4_next_stop_amended_witness :
    exUp.get_next_stop = some 4 ∧ exDown.get_next_stop = some 4 ∧
    exIdle.get_next_stop = some 5 := by
  refine ⟨?_, ?_, ?_⟩
  · apply ((C4_next_stop_amended exUp).1 rfl 4).2
    refine ⟨Or.inl (by decide), by decide, ?_⟩
    intro f hf hgt
    have hor : f = 6 ∨ f = 4 ∨ f = 5 := by
      rcases hf with hf | hf <;> simp [exUp] at hf <;> tauto
    omega
  · apply ((C4_next_stop_amended exDown).2.1 rfl 4).2
    refine ⟨Or.inr (by decide), by decide, ?_⟩
    intro f hf hlt
    have hor : f = 2 ∨ f = 4 := by
      rcases hf with hf | hf <;> simp [exDown] at hf <;> tauto
    omega
  · obtain ⟨m, hm, hmem, -, -⟩ :=
      ((C4_next_stop_amended exIdle).2.2 rfl).1 ⟨5, by decide, by decide⟩
    have hm5 : m = 5 := by simpa [exIdle] using hmem
    rw [hm5] at hm
    exact hm

/-- **C10.** `get_next_stop` never returns the elevator's current floor:
whatever the direction and the contents of the call and destination sets,
a returned target differs from `current_floor`, so it always requires
actual movement. -/
theorem C10_next_stop_ne_current (e : Elevator) (m : ℤ)
    (h : e.get_next_stop = some m) : m ≠ e.current_floor := by
  unfold Elevator.get_next_stop at h
  rcases hdir : e.direction with _ | _ | _ <;> rw [hdir] at h
  · have := (listMin_spec _ _).1 h
    rcases List.mem_append.1 this.1 with hm | hm <;>
      · have h' := List.mem_filter.1 hm
        have : e.current_floor < m := by simpa using h'.2
        omega
  · have := (listMax_spec _ _).1 h
    rcases List.mem_append.1 this.1 with hm | hm <;>
      · have h' := List.mem_filter.1 hm
        have : m < e.current_floor := by simpa using h'.2
        omega
  · simp only at h
    split at h
    · have := (pyMinBy_mem _ _ _ h).1
      have h' := List.mem_filter.1 this
      simpa using h'.2
    · have := (pyMinBy_mem _ _ _ h).1
      have h' := List.mem_filter.1 this
      simpa using h'.2

/-- Witness for C10: a concrete idle elevator with destination 5 returns
target 5, different from its current floor 1. -/
theorem C10_next_stop_ne_current_witness :
    exIdle.get_next_stop = some 5 ∧ (5 : ℤ) ≠ exIdle.current_floor := by
  refine ⟨by decide, ?_⟩
  exact C10_next_stop_ne_current exIdle 5 (by decide)

theorem pyFoldMin_const {α β : Type} [LinearOrder β] (key : α → β) (k : β)
    (xs : List α) : ∀ b : α, key b = k → (∀ y ∈ xs, key y = k) →
      pyFoldMin key b xs = b := by
  induction xs with
  | nil => intro b _ _; rfl
  | cons x xs ih =>
    intro b hb hall
    rw [pyFoldMin]
    have hx : key x = k := hall x (by simp)
    have : ¬ key x < key b := by rw [hx, hb]; exact lt_irrefl k
    rw [if_neg this]
    exact ih b hb (fun y hy => hall y (by simp [hy]))

theorem pyMinBy_const_key {α β : Type} [LinearOrder β] (key : α → β) (k : β)
    (x : α) (xs : List α) (h : ∀ y ∈ x :: xs, key y = k) :
    pyMinBy key (x :: xs) = some x := by
  rw [pyMinBy]
  rw [pyFoldMin_const key k xs x (h x (by simp))
    (fun y hy => h y (by simp [hy]))]

theorem enumL_snd_mem {α : Type} (l : List α) (i : ℕ) (p : ℕ × α)
    (h : p ∈ enumL i l) : p.2 ∈ l := by
  induction l generalizing i with
  | nil => simp [enumL] at h
  | cons x xs ih =>
    rw [enumL] at h
    rcases List.mem_cons.1 h with h1 | h1
    · simp [h1]
    · exact List.mem_cons.2 (Or.inr (ih (i + 1) h1))

/-- **C3 counterexample.** The claim says a full elevator is never the
selected elevator and that an all-full fleet yields `none`.  But
`NearestCarStrategy` only *scores* a full elevator with `full_penalty`:
on a fleet consisting of a single elevator at capacity it still returns
index 0 (the full elevator), not `none`. -/
theorem C3_strategy_counterexample :
    exFull.is_full = true ∧
    nearestCarAssign {} [exFull] 3 .UP = some 0 := by
  refine ⟨by decide, by decide⟩

/-- **C3 (amended).** `LOOKStrategy` does skip full elevators — any index
it returns names a non-full elevator, and an all-full fleet yields
`none`.  `Building.find_best_elevator` filters Maintenance elevators
before invoking any strategy, so whatever it returns is never in
Maintenance, and an all-Maintenance fleet yields `none`.
`NearestCarStrategy`, however, scores full elevators `full_penalty`
instead of skipping them: on an all-full nonempty fleet it returns the
first index (a full elevator) rather than `none`. -/
theorem C3_strategy_skips_amended :
    (∀ (cfg : Config) (es : List Elevator) (rf : ℤ) (dir : Direction),
      (∀ e ∈ es, e.is_full = true) → es ≠ [] →
        nearestCarAssign cfg es rf dir = some 0) ∧
    (∀ (es : List Elevator) (rf : ℤ) (dir : Direction) (i : ℕ),
      lookAssign es rf dir = some i →
        ∃ e, es.get? i = some e ∧ e.is_full = false) ∧
    (∀ (es : List Elevator) (rf : ℤ) (dir : Direction),
      (∀ e ∈ es, e.is_full = true) → lookAssign es rf dir = none) ∧
    (∀ (cfg : Config) (strat : Option Strategy) (es : List Elevator)
        (floor : ℤ) (dir : Direction) (dest : Option ℤ) (i : ℕ),
      find_best_idx cfg strat es floor dir dest = some i →
        ∃ e, es.get? i = some e ∧ e.state ≠ .MAINTENANCE) ∧
    (∀ (cfg : Config) (strat : Option Strategy) (es : List Elevator)
        (floor : ℤ) (dir : Direction) (dest : Option ℤ),
      (∀ e ∈ es, e.state = .MAINTENANCE) →
        find_best_idx cfg strat es floor dir dest = none) := by
  refine ⟨?_, ?_, ?_, ?_, ?_⟩
  · intro cfg es rf dir hfull hne
    cases es with
    | nil => exact absurd rfl hne
    | cons x xs =>
      rw [nearestCarAssign, enumL]
      rw [pyMinBy_const_key _ cfg.full_penalty _ _ ?_]
      · rfl
      · intro p hp
        have hmem : p.2 ∈ x :: xs := enumL_snd_mem _ 0 p (by rw [enumL]; exact hp)
        have := hfull p.2 hmem
        simp [nearestCarScore, this]
  · intro es rf dir i h
    rw [lookAssign] at h
    rcases Option.map_eq_some'.1 h with ⟨p, hp, hfst⟩
    obtain ⟨hmem, -⟩ := pyMinBy_mem _ _ _ hp
    have h1 := List.mem_filter.1 hmem
    have h2 : es.get? p.1 = some p.2 := by
      obtain ⟨k, hk, hget⟩ := (mem_enumL es 0 p.1 p.2).1 (by
        have : p = (p.1, p.2) := rfl
        rw [this] at h1
        exact h1.1)
      simpa [hk] using hget
    refine ⟨p.2, by rw [← hfst]; exact h2, ?_⟩
    have := h1.2
    simpa using this
  · intro es rf dir hfull
    rw [lookAssign]
    have : (enumL 0 es).filter (fun p => !p.2.is_full) = [] := by
      rw [List.filter_eq_nil_iff]
      intro p hp
      have := hfull p.2 (enumL_snd_mem _ 0 p hp)
      simp [this]
    rw [this]
    rfl
  · intro cfg strat es floor dir dest i h
    rw [find_best_idx.eq_def] at h
    set available := (enumL 0 es).filter
      (fun p => decide (p.2.state ≠ .MAINTENANCE)) with havail
    by_cases he : available.isEmpty
    · rw [if_pos he] at h
      exact absurd h (by simp)
    · rw [if_neg he] at h
      have key : ∀ p : ℕ × Elevator, p ∈ available → p.1 = i →
          ∃ e, es.get? i = some e ∧ e.state ≠ .MAINTENANCE := by
        intro p hp hfst
        have h1 := List.mem_filter.1 hp
        obtain ⟨k, hk, hget⟩ := (mem_enumL es 0 p.1 p.2).1 (by
          have : p = (p.1, p.2) := rfl
          rw [this] at h1
          exact h1.1)
        refine ⟨p.2, ?_, by simpa using h1.2⟩
        rw [← hfst]
        simpa [hk] using hget
      cases strat with
      | none =>
        rcases Option.map_eq_some'.1 h with ⟨p, hp, hfst⟩
        exact key p (pyMinBy_mem _ _ _ hp).1 hfst
      | some stratF =>
        have h' : (match stratF (List.map Prod.snd available) floor dir cfg
              dest with
          | none => (none : Option ℕ)
          | some idx => (available.get? idx).map Prod.fst) = some i := h
        revert h'
        cases hres : stratF (List.map Prod.snd available) floor dir cfg dest with
        | none =>
          intro h'
          exact absurd h' (by simp)
        | some idx =>
          intro h'
          rcases Option.map_eq_some'.1 h' with ⟨p, hp, hfst⟩
          exact key p (List.get?_mem hp) hfst
  · intro cfg strat es floor dir dest hm
    rw [find_best_idx.eq_def]
    have : (enumL 0 es).filter
        (fun p => decide (p.2.state ≠ .MAINTENANCE)) = [] := by
      rw [List.filter_eq_nil_iff]
      intro p hp
      have := hm p.2 (enumL_snd_mem _ 0 p hp)
      simp [this]
    rw [this]
    rfl

/-- Witness for the amended C3: the all-full fleet really makes
`NearestCar` return index 0 and `LOOK` return `none`; `LOOK` selects the
non-full `exIdle`; `find_best_elevator` skips the Maintenance elevator in
a mixed fleet and returns `none` on an all-Maintenance one. -/
theorem C3_strategy_skips_amended_witness :
    nearestCarAssign {} [exFull] 3 .UP = some 0 ∧
    lookAssign [exFull] 3 .UP = none ∧
    exIdle.is_full = false ∧
    exIdle.state ≠ ElevatorState.MAINTENANCE ∧
    find_best_idx {} none [exMaint] 3 .UP none = none := by
  refine ⟨?_, ?_, ?_, ?_, ?_⟩
  · exact C3_strategy_skips_amended.1 {} [exFull] 3 .UP
      (by intro e he; simp at he; rw [he]; decide) (by simp)
  · exact C3_strategy_skips_amended.2.2.1 [exFull] 3 .UP
      (by intro e he; simp at he; rw [he]; decide)
  · obtain ⟨e, he, hf⟩ := C3_strategy_skips_amended.2.1 [exIdle] 3 .UP 0
      (by decide)
    have h3 : exIdle = e := by simpa using he
    rw [h3]
    exact hf
  · obtain ⟨e, he, hf⟩ := C3_strategy_skips_amended.2.2.2.1 {} none
      [exMaint, exIdle] 3 .UP none 1 (by decide)
    have h3 : exIdle = e := by simpa using he
    rw [h3]
    exact hf
  · exact C3_strategy_skips_amended.2.2.2.2 {} none [exMaint] 3 .UP none
      (by intro e he; simp at he; rw [he]; decide)

theorem mem_setAdd (l : List ℤ) (x y : ℤ) :
    y ∈ setAdd l x ↔ y ∈ l ∨ y = x := by
  unfold setAdd
  split
  · next hx =>
    constructor
    · exact Or.inl
    · rintro (h | rfl)
      · exact h
      · exact hx
  · simp

theorem holdsCall_add_request_other (e : Elevator) (floor : ℤ)
    (dir : Direction) (f' : ℤ) (d' : Direction)
    (hne : f' ≠ floor ∨ d' ≠ dir) :
    holdsCall (e.add_request floor dir) f' d' = holdsCall e f' d' := by
  cases dir with
  | UP =>
    cases d' with
    | UP =>
      have hf : f' ≠ floor := by
        rcases hne with h | h
        · exact h
        · exact absurd rfl h
      simp [Elevator.add_request, holdsCall, mem_setAdd, hf]
    | DOWN => simp [Elevator.add_request, holdsCall]
    | IDLE => simp [Elevator.add_request, holdsCall]
  | DOWN =>
    cases d' with
    | UP => simp [Elevator.add_request, holdsCall]
    | DOWN =>
      have hf : f' ≠ floor := by
        rcases hne with h | h
        · exact h
        · exact absurd rfl h
      simp [Elevator.add_request, holdsCall, mem_setAdd, hf]
    | IDLE => simp [Elevator.add_request, holdsCall]
  | IDLE => simp [Elevator.add_request]

theorem length_filter_set_eq {α : Type} (p : α → Bool) (l : List α) (i : ℕ)
    (a b : α) (hget : l.get? i = some a) (hab : p b = p a) :
    ((l.set i b).filter p).length = (l.filter p).length := by
  induction l generalizing i with
  | nil => simp at hget
  | cons x xs ih =>
    cases i with
    | zero =>
      simp only [List.get?] at hget
      injection hget with hax
      subst hax
      rw [List.set_cons_zero, List.filter_cons, List.filter_cons, hab]
      cases hpx : p x <;> simp [hpx]
    | succ i =>
      simp only [List.get?] at hget
      rw [List.set_cons_succ, List.filter_cons, List.filter_cons]
      cases hpx : p x <;> simp [ih i hget]

theorem length_filter_set_le {α : Type} (p : α → Bool) (l : List α) (i : ℕ)
    (b : α) : ((l.set i b).filter p).length ≤ (l.filter p).length + 1 := by
  induction l generalizing i with
  | nil => simp
  | cons x xs ih =>
    cases i with
    | zero =>
      rw [List.set_cons_zero, List.filter_cons, List.filter_cons]
      cases hpb : p b <;> cases hpx : p x <;> simp <;> omega
    | succ i =>
      rw [List.set_cons_succ, List.filter_cons, List.filter_cons]
      have := ih i
      cases hpx : p x <;> simp <;> omega

theorem countHolding_modify_eq (es : List Elevator) (i : ℕ)
    (g : Elevator → Elevator) (f : ℤ) (d : Direction)
    (h : ∀ e, holdsCall (g e) f d = holdsCall e f d) :
    countHolding (listModify es i g) f d = countHolding es f d := by
  unfold listModify countHolding
  cases hget : es.get? i with
  | none => rfl
  | some a => exact length_filter_set_eq _ es i a (g a) hget (h a)

theorem countHolding_modify_le (es : List Elevator) (i : ℕ)
    (g : Elevator → Elevator) (f : ℤ) (d : Direction) :
    countHolding (listModify es i g) f d ≤ countHolding es f d + 1 := by
  unfold listModify countHolding
  cases hget : es.get? i with
  | none => exact Nat.le_succ _
  | some a => exact length_filter_set_le _ es i (g a)

theorem countHolding_eq_zero (es : List Elevator) (f : ℤ) (d : Direction)
    (h : ∀ e ∈ es, holdsCall e f d = false) : countHolding es f d = 0 := by
  unfold countHolding
  have : es.filter (fun e => holdsCall e f d) = [] :=
    List.filter_eq_nil_iff.2 (fun e he => by simp [h e he])
  simp [this]

theorem holdsCall_check (e : Elevator) (floor : ℤ) (dir : Direction) :
    ((decide (dir = Direction.UP) && decide (floor ∈ e.up_requests)) ||
     (decide (dir = Direction.DOWN) && decide (floor ∈ e.down_requests)))
      = holdsCall e floor dir := by
  cases dir <;> simp [holdsCall]

theorem assign_preserves_AtMostOne (cfg : Config) (strat : Option Strategy)
    (es : List Elevator) (floor : ℤ) (dir : Direction) (dest : Option ℤ)
    (h : AtMostOne es) :
    AtMostOne (assign_elevator_to_request cfg strat es floor dir dest) := by
  intro f' d'
  unfold assign_elevator_to_request
  simp only [holdsCall_check]
  split
  · exact h f' d'
  · next hc =>
    split
    · next i hfind =>
      by_cases hpair : f' = floor ∧ d' = dir
      · obtain ⟨rfl, rfl⟩ := hpair
        have hall : ∀ e ∈ es, holdsCall e f' d' = false := by
          intro e he
          cases hb : holdsCall e f' d'
          · rfl
          · exact absurd (List.any_eq_true.2 ⟨e, he, hb⟩) hc
        have hz : countHolding es f' d' = 0 := countHolding_eq_zero _ _ _ hall
        have hle := countHolding_modify_le es i
          (fun e => e.add_request f' d') f' d'
        omega
      · have hne : f' ≠ floor ∨ d' ≠ dir := by tauto
        rw [countHolding_modify_eq es i (fun e => e.add_request floor dir) f' d'
          (fun e => holdsCall_add_request_other e floor dir f' d' hne)]
        exact h f' d'
    · exact h f' d'

theorem add_person_request_elevators (cfg : Config) (now : ℚ) (b : Building)
    (p : Person) :
    (add_person_request cfg now b p).elevators
      = assign_elevator_to_request cfg b.strategy b.elevators p.current_floor
          p.direction (some p.destination_floor) := by
  unfold add_person_request
  cases p.direction <;> split <;> rfl

theorem add_person_preserves_AtMostOne (cfg : Config) (now : ℚ) (b : Building)
    (p : Person) (h : AtMostOne b.elevators) :
    AtMostOne (add_person_request cfg now b p).elevators := by
  rw [add_person_request_elevators]
  exact assign_preserves_AtMostOne cfg b.strategy b.elevators p.current_floor
    p.direction (some p.destination_floor) h

theorem runCalls_preserves_AtMostOne (cfg : Config) (b : Building)
    (calls : List BuildingCall) (h : AtMostOne b.elevators) :
    AtMostOne (runCalls cfg b calls).elevators := by
  induction calls generalizing b with
  | nil => exact h
  | cons c cs ih =>
    rw [runCalls, List.foldl_cons]
    apply ih
    cases c with
    | assignCall floor dir dest =>
      exact assign_preserves_AtMostOne cfg b.strategy b.elevators floor dir
        dest h
    | personCall now p => exact add_person_preserves_AtMostOne cfg now b p h

/-- **C2.** Single-assignment invariant.  `assign_elevator_to_request`
checks every elevator'''s pending call sets and adds nothing when some
elevator already holds the `(floor, direction)` call; consequently,
starting from a fleet where each `(floor, direction)` call is pending on
at most one elevator, any sequence of `assign_elevator_to_request` /
`add_person_request` calls keeps each call pending on at most one
elevator. -/
theorem C2_single_assignment :
    (∀ (cfg : Config) (strat : Option Strategy) (es : List Elevator)
        (floor : ℤ) (dir : Direction) (dest : Option ℤ),
      (∃ e ∈ es, holdsCall e floor dir = true) →
        assign_elevator_to_request cfg strat es floor dir dest = es) ∧
    (∀ (cfg : Config) (strat : Option Strategy) (es : List Elevator)
        (floor : ℤ) (dir : Direction) (dest : Option ℤ),
      AtMostOne es →
        AtMostOne (assign_elevator_to_request cfg strat es floor dir dest)) ∧
    (∀ (cfg : Config) (now : ℚ) (b : Building) (p : Person),
      AtMostOne b.elevators →
        AtMostOne (add_person_request cfg now b p).elevators) ∧
    (∀ (cfg : Config) (b : Building) (calls : List BuildingCall),
      AtMostOne b.elevators →
        AtMostOne (runCalls cfg b calls).elevators) := by
  refine ⟨?_, assign_preserves_AtMostOne, add_person_preserves_AtMostOne,
    runCalls_preserves_AtMostOne⟩
  intro cfg strat es floor dir dest ⟨e, he, hhold⟩
  unfold assign_elevator_to_request
  simp only [holdsCall_check]
  rw [if_pos (List.any_eq_true.2 ⟨e, he, hhold⟩)]

/-- Witness for C2: on `exBheld`, whose elevator 2 already holds the
up-call for floor 5, a second dispatch of `(5, UP)` changes nothing; on
the fresh two-elevator building `exB2`, a dispatch, a person request and
a two-call sequence all leave every call pending on at most one
elevator. -/
theorem C2_single_assignment_witness :
    assign_elevator_to_request {} exBheld.strategy exBheld.elevators 5 .UP
        none = exBheld.elevators ∧
    countHolding (assign_elevator_to_request {} exB2.strategy exB2.elevators
        5 .UP none) 5 .UP ≤ 1 ∧
    countHolding (add_person_request {} 0 exB2 exPerson).elevators 3 .UP ≤ 1 ∧
    countHolding (runCalls {} exB2
        [.assignCall 5 .UP none, .personCall 0 exPerson]).elevators 5 .UP
      ≤ 1 := by
  have hB2 : AtMostOne exB2.elevators := by
    intro floor dir
    cases dir <;>
      simp [countHolding, holdsCall, exB2, mkElevator, List.filter]
  refine ⟨?_, ?_, ?_, ?_⟩
  · exact C2_single_assignment.1 {} exBheld.strategy exBheld.elevators 5 .UP
      none ⟨{ mkElevator 2 8 with up_requests := [5] }, by decide, by decide⟩
  · exact C2_single_assignment.2.1 {} exB2.strategy exB2.elevators 5 .UP none
      hB2 5 .UP
  · exact C2_single_assignment.2.2.1 {} 0 exB2 exPerson hB2 3 .UP
  · exact C2_single_assignment.2.2.2 {} exB2
      [.assignCall 5 .UP none, .personCall 0 exPerson] hB2 5 .UP

theorem add_person_request_counter (cfg : Config) (now : ℚ) (b : Building)
    (p : Person) :
    (add_person_request cfg now b p).total_people_generated
      = b.total_people_generated := by
  simp only [add_person_request]
  rcases p.direction <;> split <;> rfl

theorem add_person_request_queues_up (cfg : Config) (now : ℚ) (b : Building)
    (p : Person) (hd : p.direction = .UP) :
    (add_person_request cfg now b p).waiting_up
      = (fun f => if f = p.current_floor then b.waiting_up f ++ [p]
                  else b.waiting_up f) ∧
    (add_person_request cfg now b p).waiting_down = b.waiting_down := by
  simp only [add_person_request, hd]
  split <;> exact ⟨rfl, rfl⟩

theorem add_person_request_queues_down (cfg : Config) (now : ℚ) (b : Building)
    (p : Person) (hd : p.direction = .DOWN) :
    (add_person_request cfg now b p).waiting_down
      = (fun f => if f = p.current_floor then b.waiting_down f ++ [p]
                  else b.waiting_down f) ∧
    (add_person_request cfg now b p).waiting_up = b.waiting_up := by
  simp only [add_person_request, hd]
  split <;> exact ⟨rfl, rfl⟩

/-- **C6.** `add_manual_request` returns `False` exactly when some floor
lies outside `1..num_floors` or the two floors are equal, and then the
building is returned unchanged (no queue entry, no counter change).  On
valid distinct floors it returns `True`, appends the new `Person` to the
origin floor'''s directional waiting queue (up-queue for an up trip,
down-queue for a down trip, all other queues untouched), and increments
the generated counter by exactly one. -/
theorem C6_add_manual_request (cfg : Config) (now : ℚ) (b : Building)
    (from_floor to_floor : ℤ) :
    ((add_manual_request cfg now b from_floor to_floor).1 = false ↔
      (from_floor < 1 ∨ b.num_floors < from_floor ∨ to_floor < 1 ∨
       b.num_floors < to_floor ∨ from_floor = to_floor)) ∧
    ((add_manual_request cfg now b from_floor to_floor).1 = false →
      (add_manual_request cfg now b from_floor to_floor).2 = b) ∧
    ((add_manual_request cfg now b from_floor to_floor).1 = true →
      (add_manual_request cfg now b from_floor
          to_floor).2.total_people_generated
        = b.total_people_generated + 1 ∧
      (from_floor < to_floor →
        (add_manual_request cfg now b from_floor to_floor).2.waiting_up
            from_floor
          = b.waiting_up from_floor ++ [manualPerson b now from_floor to_floor] ∧
        (∀ f, f ≠ from_floor →
          (add_manual_request cfg now b from_floor to_floor).2.waiting_up f
            = b.waiting_up f) ∧
        (add_manual_request cfg now b from_floor to_floor).2.waiting_down
          = b.waiting_down) ∧
      (to_floor < from_floor →
        (add_manual_request cfg now b from_floor to_floor).2.waiting_down
            from_floor
          = b.waiting_down from_floor ++
              [manualPerson b now from_floor to_floor] ∧
        (∀ f, f ≠ from_floor →
          (add_manual_request cfg now b from_floor to_floor).2.waiting_down f
            = b.waiting_down f) ∧
        (add_manual_request cfg now b from_floor to_floor).2.waiting_up
          = b.waiting_up)) := by
  unfold add_manual_request
  by_cases hv : 1 ≤ from_floor ∧ from_floor ≤ b.num_floors ∧
      1 ≤ to_floor ∧ to_floor ≤ b.num_floors
  · rw [if_neg (not_not_intro hv)]
    obtain ⟨h1, h2, h3, h4⟩ := hv
    by_cases heq : from_floor = to_floor
    · rw [if_pos heq]
      refine ⟨?_, fun _ => rfl, ?_⟩
      · constructor
        · intro _
          exact Or.inr (Or.inr (Or.inr (Or.inr heq)))
        · intro _
          rfl
      · intro h
        exact absurd h (by simp)
    · rw [if_neg heq]
      refine ⟨?_, ?_, ?_⟩
      · constructor
        · intro h
          exact absurd h (by simp)
        · intro h
          rcases h with h | h | h | h | h <;> omega
      · intro h
        exact absurd h (by simp)
      · intro _
        refine ⟨?_, ?_, ?_⟩
        · show (add_person_request cfg now b (manualPerson b now from_floor
              to_floor)).total_people_generated + 1
            = b.total_people_generated + 1
          rw [add_person_request_counter]
        · intro hlt
          have hd : (manualPerson b now from_floor to_floor).direction
              = .UP := by
            simp [manualPerson, Person.direction, hlt]
          obtain ⟨hq, hq2⟩ := add_person_request_queues_up cfg now b
            (manualPerson b now from_floor to_floor) hd
          refine ⟨?_, ?_, ?_⟩
          · show (add_person_request cfg now b (manualPerson b now from_floor
                to_floor)).waiting_up from_floor
              = b.waiting_up from_floor ++
                  [manualPerson b now from_floor to_floor]
            rw [hq]
            simp [manualPerson]
          · intro f hf
            show (add_person_request cfg now b (manualPerson b now from_floor
                to_floor)).waiting_up f = b.waiting_up f
            rw [hq]
            simp [manualPerson, hf]
          · exact hq2
        · intro hlt
          have hd : (manualPerson b now from_floor to_floor).direction
              = .DOWN := by
            simp only [manualPerson, Person.direction]
            rw [if_neg (by omega), if_pos (by omega)]
          obtain ⟨hq, hq2⟩ := add_person_request_queues_down cfg now b
            (manualPerson b now from_floor to_floor) hd
          refine ⟨?_, ?_, ?_⟩
          · show (add_person_request cfg now b (manualPerson b now from_floor
                to_floor)).waiting_down from_floor
              = b.waiting_down from_floor ++
                  [manualPerson b now from_floor to_floor]
            rw [hq]
            simp [manualPerson]
          · intro f hf
            show (add_person_request cfg now b (manualPerson b now from_floor
                to_floor)).waiting_down f = b.waiting_down f
            rw [hq]
            simp [manualPerson, hf]
          · exact hq2
  · rw [if_pos hv]
    refine ⟨?_, fun _ => rfl, ?_⟩
    · constructor
      · intro _
        by_contra hall
        push_neg at hall
        obtain ⟨ha, hb2, hc, hd2, -⟩ := hall
        exact hv ⟨by omega, by omega, by omega, by omega⟩
      · intro _
        rfl
    · intro h
      exact absurd h (by simp)

/-- Witness for C6 at concrete inputs on the two-elevator building
`exB2` (10 floors): request 1→3 succeeds, enqueues the person at floor 1
going up and bumps the counter to 1; request 11→3 (floor out of range)
and request 2→2 (equal floors) are rejected with the building returned
unchanged. -/
theorem C6_add_manual_request_witness :
    (add_manual_request {} 0 exB2 1 3).1 = true ∧
    (add_manual_request {} 0 exB2 1 3).2.total_people_generated = 1 ∧
    (add_manual_request {} 0 exB2 1 3).2.waiting_up 1
      = [manualPerson exB2 0 1 3] ∧
    (add_manual_request {} 0 exB2 11 3).1 = false ∧
    (add_manual_request {} 0 exB2 11 3).2 = exB2 ∧
    (add_manual_request {} 0 exB2 2 2).1 = false := by
  have hval : (add_manual_request {} 0 exB2 1 3).1 = true := by
    cases hr : (add_manual_request ({} : Config) 0 exB2 1 3).1
    · have hcon := (C6_add_manual_request {} 0 exB2 1 3).1.1 hr
      simp only [exB2] at hcon
      rcases hcon with h | h | h | h | h <;> omega
    · rfl
  have hmain := (C6_add_manual_request {} 0 exB2 1 3).2.2 hval
  have hinval : (add_manual_request {} 0 exB2 11 3).1 = false :=
    (C6_add_manual_request {} 0 exB2 11 3).1.2
      (Or.inr (Or.inl (by norm_num [exB2])))
  refine ⟨hval, ?_, ?_, hinval, ?_, ?_⟩
  · rw [hmain.1]
    rfl
  · rw [(hmain.2.1 (by omega)).1]
    rfl
  · exact (C6_add_manual_request {} 0 exB2 11 3).2.1 hinval
  · exact (C6_add_manual_request {} 0 exB2 2 2).1.2
      (Or.inr (Or.inr (Or.inr (Or.inr rfl))))

theorem int_emod_add_left (a b N : ℤ) : (a % N + b) % N = (a + b) % N := by
  conv_lhs => rw [Int.add_emod]
  rw [Int.emod_emod_of_dvd _ dvd_rfl]
  rw [← Int.add_emod]

theorem int_add_emod_right (a b N : ℤ) : (a + b % N) % N = (a + b) % N := by
  conv_lhs => rw [Int.add_emod]
  rw [Int.emod_emod_of_dvd _ dvd_rfl]
  rw [← Int.add_emod]

theorem rrAssign_not_full (es : List Elevator) (c : ℤ) (hne : es ≠ [])
    (hfull : ∀ e ∈ es, e.is_full = false) :
    rrAssign es c = (some ((c + 1) % (es.length : ℤ)).toNat,
      (c + 1) % (es.length : ℤ)) := by
  have hpos : 0 < es.length := List.length_pos.2 hne
  have hNz : (es.length : ℤ) ≠ 0 := by
    simp only [ne_eq, Nat.cast_eq_zero]
    omega
  have hnn : 0 ≤ (c + 1) % (es.length : ℤ) := Int.emod_nonneg _ hNz
  have hlt : (c + 1) % (es.length : ℤ) < (es.length : ℤ) :=
    Int.emod_lt_of_pos _ (by exact_mod_cast hpos)
  have hltn : ((c + 1) % (es.length : ℤ)).toNat < es.length := by omega
  obtain ⟨k, hk⟩ : ∃ k, es.length = k + 1 := ⟨es.length - 1, by omega⟩
  have hgetD : es.getD ((c + 1) % (es.length : ℤ)).toNat (mkElevator 0 0)
      = es.get ⟨((c + 1) % (es.length : ℤ)).toNat, hltn⟩ := by
    rw [List.getD_eq_get?, List.get?_eq_get hltn]
    rfl
  have hnf : (es.getD ((c + 1) % (es.length : ℤ)).toNat
      (mkElevator 0 0)).is_full = false := by
    rw [hgetD]
    exact hfull _ (es.get_mem _ _)
  rw [rrAssign]
  conv_lhs => rw [hk]
  rw [rrGo]
  simp only [hnf, Bool.false_eq_true, if_false]

theorem runRR_results (es : List Elevator) (hne : es ≠ [])
    (hfull : ∀ e ∈ es, e.is_full = false) :
    ∀ (n : ℕ) (c : ℤ),
      (runRR es n c).1 = (List.range n).map
        (fun j : ℕ => some (((c + 1 + (j : ℤ)) % (es.length : ℤ)).toNat)) := by
  intro n
  induction n with
  | zero => intro c; rfl
  | succ n ih =>
    intro c
    rw [runRR]
    simp only [rrAssign_not_full es c hne hfull]
    rw [ih ((c + 1) % (es.length : ℤ))]
    rw [List.range_succ_eq_map]
    rw [List.map_cons, List.map_map]
    refine congrArg₂ List.cons ?_ ?_
    · norm_num
    · apply List.map_congr
      intro j hj
      simp only [Function.comp_apply, Option.some.injEq]
      congr 1
      push_cast [Nat.succ_eq_add_one]
      rw [add_assoc ((c + 1) % ((es.length : ℕ) : ℤ)) 1 (j : ℤ),
        int_emod_add_left]
      ring_nf

/-- **C7.** RoundRobin fairness: with a fleet of `N` non-full elevators
and any starting cursor, a single call returns the next cursor position
`(c + 1) % N` and stores it (the cursor advances by one, modulo `N`,
every call), and `N` consecutive calls return `N` indices that are
pairwise distinct and include every index `0 .. N-1` exactly once. -/
theorem C7_round_robin_fairness (es : List Elevator) (c : ℤ) (hne : es ≠ [])
    (hfull : ∀ e ∈ es, e.is_full = false) :
    rrAssign es c = (some ((c + 1) % (es.length : ℤ)).toNat,
        (c + 1) % (es.length : ℤ)) ∧
    (runRR es es.length c).1.length = es.length ∧
    ((runRR es es.length c).1.filterMap id).Nodup ∧
    (∀ i, i < es.length → i ∈ (runRR es es.length c).1.filterMap id) := by
  have hres := runRR_results es hne hfull es.length c
  have hN : (0 : ℤ) < (es.length : ℤ) := by
    have := List.length_pos.2 hne
    exact_mod_cast this
  have hNz : (es.length : ℤ) ≠ 0 := ne_of_gt hN
  have hfm : (runRR es es.length c).1.filterMap id
      = (List.range es.length).map
          (fun j : ℕ => ((c + 1 + (j : ℤ)) % (es.length : ℤ)).toNat) := by
    rw [hres]
    rw [List.filterMap_map]
    have hco : (id ∘ fun j : ℕ =>
        some (((c + 1 + (j : ℤ)) % (es.length : ℤ)).toNat))
        = (some ∘ fun j : ℕ =>
            ((c + 1 + (j : ℤ)) % (es.length : ℤ)).toNat) := rfl
    rw [hco, List.filterMap_eq_map]
  refine ⟨rrAssign_not_full es c hne hfull, ?_, ?_, ?_⟩
  · rw [hres, List.length_map, List.length_range]
  · rw [hfm]
    apply List.Nodup.map_on ?_ (List.nodup_range _)
    intro j1 h1 j2 h2 heq
    simp only [List.mem_range] at h1 h2
    have e1 : (0 : ℤ) ≤ (c + 1 + (j1 : ℤ)) % (es.length : ℤ) :=
      Int.emod_nonneg _ hNz
    have e2 : (0 : ℤ) ≤ (c + 1 + (j2 : ℤ)) % (es.length : ℤ) :=
      Int.emod_nonneg _ hNz
    have hEq : (c + 1 + (j1 : ℤ)) % (es.length : ℤ)
        = (c + 1 + (j2 : ℤ)) % (es.length : ℤ) := by omega
    have h0 := Int.emod_eq_emod_iff_emod_sub_eq_zero.1 hEq
    have hdvd := Int.dvd_of_emod_eq_zero h0
    have hsub : (c + 1 + (j1 : ℤ)) - (c + 1 + (j2 : ℤ)) = (j1 : ℤ) - j2 := by
      ring
    rw [hsub] at hdvd
    by_contra hne2
    have hnz : (j1 : ℤ) - j2 ≠ 0 := by omega
    have habs : 0 < |(j1 : ℤ) - j2| := abs_pos.2 hnz
    have hle := Int.le_of_dvd habs ((dvd_abs _ _).2 hdvd)
    have hlt : |(j1 : ℤ) - (j2 : ℤ)| < (es.length : ℤ) := by
      rcases abs_cases ((j1 : ℤ) - j2) with ⟨he, _⟩ | ⟨he, _⟩ <;> omega
    omega
  · intro i hi
    rw [hfm, List.mem_map]
    refine ⟨(((i : ℤ) - (c + 1)) % (es.length : ℤ)).toNat, ?_, ?_⟩
    · rw [List.mem_range]
      have h1 : 0 ≤ ((i : ℤ) - (c + 1)) % (es.length : ℤ) :=
        Int.emod_nonneg _ hNz
      have h2 : ((i : ℤ) - (c + 1)) % (es.length : ℤ) < (es.length : ℤ) :=
        Int.emod_lt_of_pos _ hN
      omega
    · have h1 : 0 ≤ ((i : ℤ) - (c + 1)) % (es.length : ℤ) :=
        Int.emod_nonneg _ hNz
      have hcast : (((((i : ℤ) - (c + 1)) % (es.length : ℤ)).toNat : ℕ) : ℤ)
          = ((i : ℤ) - (c + 1)) % (es.length : ℤ) := Int.toNat_of_nonneg h1
      rw [hcast, int_add_emod_right]
      have hsimp : (c + 1 + ((i : ℤ) - (c + 1))) = (i : ℤ) := by ring
      rw [hsimp]
      rw [Int.emod_eq_of_lt (by omega) (by exact_mod_cast hi)]
      omega

/-- Witness for C7: three non-full elevators, cursor starting at the
initial value `-1`; one call returns index 0 storing cursor 0, and the
three consecutive calls return three pairwise-distinct indices covering
0, 1 and 2. -/
theorem C7_round_robin_fairness_witness :
    rrAssign exFleet3 (-1) = (some 0, 0) ∧
    (runRR exFleet3 3 (-1)).1.length = 3 ∧
    ((runRR exFleet3 3 (-1)).1.filterMap id).Nodup ∧
    0 ∈ (runRR exFleet3 3 (-1)).1.filterMap id ∧
    1 ∈ (runRR exFleet3 3 (-1)).1.filterMap id ∧
    2 ∈ (runRR exFleet3 3 (-1)).1.filterMap id := by
  have hfull : ∀ e ∈ exFleet3, e.is_full = false := by
    intro e he
    simp only [exFleet3, List.mem_cons, List.mem_singleton] at he
    rcases he with rfl | rfl | he
    · decide
    · decide
    · simp at he
      rw [he]
      decide
  have h := C7_round_robin_fairness exFleet3 (-1) (by simp [exFleet3]) hfull
  refine ⟨?_, ?_, ?_, ?_, ?_, ?_⟩
  · simpa [exFleet3] using h.1
  · simpa [exFleet3] using h.2.1
  · exact h.2.2.1
  · exact h.2.2.2 0 (by decide)
  · exact h.2.2.2 1 (by decide)
  · exact h.2.2.2 2 (by decide)

theorem update_same_direction_eq (s : MLState) (wait_time : ℚ) (idx : ℕ)
    (a : MLAssignment) (hget : s.assignment_history.get? idx = some a) :
    (update_from_feedback s wait_time idx).strategy_weights.same_direction
      = max (1 / 10) s.strategy_weights.same_direction := by
  have hlen : ¬ s.assignment_history.length ≤ idx := by
    obtain ⟨hlt, -⟩ := List.get?_eq_some.1 hget
    omega
  unfold update_from_feedback
  rw [if_neg hlen, hget]
  by_cases h1 : a.elevator_state = ElevatorState.IDLE <;>
    by_cases h2 : |a.elevator_floor - a.request_floor| < 5 <;>
      by_cases h3 : a.elevator_load < 1 / 2 <;>
        simp only [h1, h2, h3, eq_self_iff_true, if_true, if_false,
          ite_true, ite_false] <;>
      rfl

theorem update_idle_pref_eq (s : MLState) (wait_time : ℚ) (idx : ℕ)
    (a : MLAssignment) (hget : s.assignment_history.get? idx = some a) :
    (update_from_feedback s wait_time idx).strategy_weights.idle_preference
      = max (1 / 10)
          (if a.elevator_state = .IDLE then
            s.strategy_weights.idle_preference + (1 / 10) *
              (if wait_time < 10 then 1
               else if wait_time < 30 then 1 / 2 else -(1 / 2))
          else s.strategy_weights.idle_preference) := by
  have hlen : ¬ s.assignment_history.length ≤ idx := by
    obtain ⟨hlt, -⟩ := List.get?_eq_some.1 hget
    omega
  unfold update_from_feedback
  rw [if_neg hlen, hget]
  by_cases h1 : a.elevator_state = ElevatorState.IDLE <;>
    by_cases h2 : |a.elevator_floor - a.request_floor| < 5 <;>
      by_cases h3 : a.elevator_load < 1 / 2 <;>
        simp only [h1, h2, h3, eq_self_iff_true, if_true, if_false,
          ite_true, ite_false] <;>
      rfl

theorem update_nearest_eq (s : MLState) (wait_time : ℚ) (idx : ℕ)
    (a : MLAssignment) (hget : s.assignment_history.get? idx = some a) :
    (update_from_feedback s wait_time idx).strategy_weights.nearest
      = max (1 / 10)
          (if |a.elevator_floor - a.request_floor| < 5 then
            s.strategy_weights.nearest + (1 / 10) *
              (if wait_time < 10 then 1
               else if wait_time < 30 then 1 / 2 else -(1 / 2))
          else s.strategy_weights.nearest) := by
  have hlen : ¬ s.assignment_history.length ≤ idx := by
    obtain ⟨hlt, -⟩ := List.get?_eq_some.1 hget
    omega
  unfold update_from_feedback
  rw [if_neg hlen, hget]
  by_cases h1 : a.elevator_state = ElevatorState.IDLE <;>
    by_cases h2 : |a.elevator_floor - a.request_floor| < 5 <;>
      by_cases h3 : a.elevator_load < 1 / 2 <;>
        simp only [h1, h2, h3, eq_self_iff_true, if_true, if_false,
          ite_true, ite_false] <;>
      rfl

theorem update_load_balanced_eq (s : MLState) (wait_time : ℚ) (idx : ℕ)
    (a : MLAssignment) (hget : s.assignment_history.get? idx = some a) :
    (update_from_feedback s wait_time idx).strategy_weights.load_balanced
      = max (1 / 10)
          (if a.elevator_load < 1 / 2 then
            s.strategy_weights.load_balanced + (1 / 10) *
              (if wait_time < 10 then 1
               else if wait_time < 30 then 1 / 2 else -(1 / 2))
          else s.strategy_weights.load_balanced) := by
  have hlen : ¬ s.assignment_history.length ≤ idx := by
    obtain ⟨hlt, -⟩ := List.get?_eq_some.1 hget
    omega
  unfold update_from_feedback
  rw [if_neg hlen, hget]
  by_cases h1 : a.elevator_state = ElevatorState.IDLE <;>
    by_cases h2 : |a.elevator_floor - a.request_floor| < 5 <;>
      by_cases h3 : a.elevator_load < 1 / 2 <;>
        simp only [h1, h2, h3, eq_self_iff_true, if_true, if_false,
          ite_true, ite_false] <;>
      rfl

/-- **C8 counterexample.** The claim says a wait time of 30 seconds or
more leaves all weights unchanged.  In the code the reward is `-0.5`,
not zero: feeding back a 30-second wait on `exMLState` *decreases* the
implicated idle-preference weight from `1` to `0.95`. -/
theorem C8_feedback_counterexample :
    (update_from_feedback exMLState 30 0).strategy_weights.idle_preference
      = 19 / 20 ∧
    exMLState.strategy_weights.idle_preference = 1 ∧
    (19 / 20 : ℚ) ≠ 1 := by
  refine ⟨?_, rfl, by norm_num⟩
  rw [update_idle_pref_eq exMLState 30 0 exAssignIdle rfl]
  rw [if_pos (show exAssignIdle.elevator_state = .IDLE from rfl)]
  rw [if_neg (by norm_num : ¬(30 : ℚ) < 10),
    if_neg (by norm_num : ¬(30 : ℚ) < 30)]
  rw [max_eq_right (by norm_num [exMLState])]
  norm_num [exMLState]

/-- **C8 (amended).** For a valid assignment index: a wait below 10
seconds raises each implicated weight by `0.1`, a wait in `[10, 30)` by
`0.05`, and a wait of 30 seconds or more *lowers* each implicated weight
by `0.05` (a mild penalty, not "unchanged"), all subject to the final
clamp at the floor `0.1`; unimplicated weights (always including
same-direction, which the feedback never touches) are only clamped; and
after the call every weight is at least `0.1`. -/
theorem C8_feedback_amended (s : MLState) (wait_time : ℚ)
    (assignment_idx : ℕ) (a : MLAssignment)
    (hget : s.assignment_history.get? assignment_idx = some a) :
    (1 / 10 ≤ (update_from_feedback s wait_time
        assignment_idx).strategy_weights.nearest ∧
     1 / 10 ≤ (update_from_feedback s wait_time
        assignment_idx).strategy_weights.same_direction ∧
     1 / 10 ≤ (update_from_feedback s wait_time
        assignment_idx).strategy_weights.idle_preference ∧
     1 / 10 ≤ (update_from_feedback s wait_time
        assignment_idx).strategy_weights.load_balanced) ∧
    ((update_from_feedback s wait_time
        assignment_idx).strategy_weights.same_direction
      = max (1 / 10) s.strategy_weights.same_direction) ∧
    (a.elevator_state = .IDLE →
      (update_from_feedback s wait_time
          assignment_idx).strategy_weights.idle_preference
        = max (1 / 10) (s.strategy_weights.idle_preference +
            (1 / 10) * (if wait_time < 10 then 1
              else if wait_time < 30 then 1 / 2 else -(1 / 2)))) ∧
    (a.elevator_state ≠ .IDLE →
      (update_from_feedback s wait_time
          assignment_idx).strategy_weights.idle_preference
        = max (1 / 10) s.strategy_weights.idle_preference) ∧
    (|a.elevator_floor - a.request_floor| < 5 →
      (update_from_feedback s wait_time
          assignment_idx).strategy_weights.nearest
        = max (1 / 10) (s.strategy_weights.nearest +
            (1 / 10) * (if wait_time < 10 then 1
              else if wait_time < 30 then 1 / 2 else -(1 / 2)))) ∧
    (a.elevator_load < 1 / 2 →
      (update_from_feedback s wait_time
          assignment_idx).strategy_weights.load_balanced
        = max (1 / 10) (s.strategy_weights.load_balanced +
            (1 / 10) * (if wait_time < 10 then 1
              else if wait_time < 30 then 1 / 2 else -(1 / 2)))) := by
  refine ⟨⟨?_, ?_, ?_, ?_⟩, ?_, ?_, ?_, ?_, ?_⟩
  · rw [update_nearest_eq s wait_time assignment_idx a hget]
    exact le_max_left _ _
  · rw [update_same_direction_eq s wait_time assignment_idx a hget]
    exact le_max_left _ _
  · rw [update_idle_pref_eq s wait_time assignment_idx a hget]
    exact le_max_left _ _
  · rw [update_load_balanced_eq s wait_time assignment_idx a hget]
    exact le_max_left _ _
  · exact update_same_direction_eq s wait_time assignment_idx a hget
  · intro h
    rw [update_idle_pref_eq s wait_time assignment_idx a hget, if_pos h]
  · intro h
    rw [update_idle_pref_eq s wait_time assignment_idx a hget, if_neg h]
  · intro h
    rw [update_nearest_eq s wait_time assignment_idx a hget, if_pos h]
  · intro h
    rw [update_load_balanced_eq s wait_time assignment_idx a hget, if_pos h]

/-- Witness for the amended C8 on `exMLState` (only idle-preference
implicated): wait 5 raises it to `1.1`, wait 20 to `1.05`, wait 30
lowers it to `0.95`; same-direction stays `1`; all weights stay at least
`0.1`. -/
theorem C8_feedback_amended_witness :
    (update_from_feedback exMLState 5 0).strategy_weights.idle_preference
      = 11 / 10 ∧
    (update_from_feedback exMLState 20 0).strategy_weights.idle_preference
      = 21 / 20 ∧
    (update_from_feedback exMLState 30 0).strategy_weights.idle_preference
      = 19 / 20 ∧
    (update_from_feedback exMLState 5 0).strategy_weights.same_direction
      = 1 ∧
    1 / 10 ≤ (update_from_feedback exMLState 5 0).strategy_weights.nearest := by
  have h5 := C8_feedback_amended exMLState 5 0 exAssignIdle rfl
  have h20 := C8_feedback_amended exMLState 20 0 exAssignIdle rfl
  have h30 := C8_feedback_amended exMLState 30 0 exAssignIdle rfl
  refine ⟨?_, ?_, ?_, ?_, h5.1.1⟩
  · rw [h5.2.2.1 rfl]
    rw [if_pos (by norm_num : (5 : ℚ) < 10)]
    rw [max_eq_right (by norm_num [exMLState])]
    norm_num [exMLState]
  · rw [h20.2.2.1 rfl]
    rw [if_neg (by norm_num : ¬(20 : ℚ) < 10),
      if_pos (by norm_num : (20 : ℚ) < 30)]
    rw [max_eq_right (by norm_num [exMLState])]
    norm_num [exMLState]
  · rw [h30.2.2.1 rfl]
    rw [if_neg (by norm_num : ¬(30 : ℚ) < 10),
      if_neg (by norm_num : ¬(30 : ℚ) < 30)]
    rw [max_eq_right (by norm_num [exMLState])]
    norm_num [exMLState]
  · rw [h5.2.1]
    rw [max_eq_right (by norm_num [exMLState])]
    rfl

theorem ddGroupPred_iff (dd : DDState) (d : ℤ) (direction : Direction)
    (p : ℕ × Elevator) :
    ddGroupPred dd d direction p = true ↔
      (p.2.is_full = false ∧
       (∃ x ∈ dd.elevator_destinations p.1, |x - d| ≤ 3) ∧
       (p.2.direction = direction ∨ p.2.state = .IDLE)) := by
  unfold ddGroupPred
  simp [Bool.and_eq_true, Bool.or_eq_true, List.any_eq_true,
    Bool.not_eq_true', and_assoc]

theorem enumL_mem_of_get? {α : Type} (l : List α) (k : ℕ) (a : α)
    (h : l.get? k = some a) : (k, a) ∈ enumL 0 l :=
  (mem_enumL l 0 k a).2 ⟨k, (Nat.zero_add k).symm, h⟩

theorem enumL_get?_of_mem {α : Type} (l : List α) (p : ℕ × α)
    (h : p ∈ enumL 0 l) : l.get? p.1 = some p.2 := by
  obtain ⟨k, hk, hget⟩ := (mem_enumL l 0 p.1 p.2).1 (by
    have hp : p = (p.1, p.2) := rfl
    rw [hp] at h
    exact h)
  simpa [hk] using hget

/-- **C9.** DestinationDispatch grouping: with a known destination, if
any elevator qualifies for grouping (non-full, a registered destination
within 3 floors, idle or moving in the request direction), the strategy
returns a qualifying elevator — regardless of how near any other
elevator is; only when no elevator qualifies does it return exactly the
nearest-available fallback; and the fallback always returns a non-full
elevator, an idle one of minimal distance when some non-full idle
elevator exists, otherwise a non-full one of minimal distance. -/
theorem C9_destination_dispatch (dd : DDState) (es : List Elevator)
    (rf : ℤ) (dir : Direction) (d : ℤ) :
    ((∃ i, ddQualifies dd es d dir i) →
      ∃ j, ddAssign dd es rf dir (some d) = some j ∧
        ddQualifies dd es d dir j) ∧
    ((∀ i, ¬ ddQualifies dd es d dir i) →
      ddAssign dd es rf dir (some d) = ddAssignNearest es rf) ∧
    (∀ j, ddAssignNearest es rf = some j →
      ∃ e, es.get? j = some e ∧ e.is_full = false ∧
        ((∃ p ∈ es, p.is_full = false ∧ p.state = ElevatorState.IDLE) →
          e.state = ElevatorState.IDLE ∧
          (∀ (k : ℕ) (ek : Elevator), es.get? k = some ek →
            ek.is_full = false → ek.state = ElevatorState.IDLE →
            |e.current_floor - rf| ≤ |ek.current_floor - rf|)) ∧
        ((∀ p ∈ es, p.is_full = false → p.state ≠ ElevatorState.IDLE) →
          ∀ (k : ℕ) (ek : Elevator), es.get? k = some ek →
            ek.is_full = false →
            |e.current_floor - rf| ≤ |ek.current_floor - rf|)) := by
  refine ⟨?_, ?_, ?_⟩
  · rintro ⟨i, e, hget, hf, hx, hd⟩
    have hmem : (i, e) ∈ enumL 0 es := enumL_mem_of_get? es i e hget
    have hpred : ddGroupPred dd d dir (i, e) = true :=
      (ddGroupPred_iff dd d dir (i, e)).2 ⟨hf, hx, hd⟩
    cases hfind : (enumL 0 es).find? (ddGroupPred dd d dir) with
    | none =>
      rw [List.find?_eq_none] at hfind
      exact absurd hpred (hfind (i, e) hmem)
    | some q =>
      have hqmem := List.mem_of_find?_eq_some hfind
      have hqpred := List.find?_some hfind
      obtain ⟨hqf, hqx, hqd⟩ := (ddGroupPred_iff dd d dir q).1 hqpred
      refine ⟨q.1, ?_, q.2, enumL_get?_of_mem es q hqmem, hqf, hqx, hqd⟩
      simp only [ddAssign, ddFindGrouped, hfind, Option.map_some']
  · intro hnone
    have hfind : (enumL 0 es).find? (ddGroupPred dd d dir) = none := by
      rw [List.find?_eq_none]
      intro p hp hpred
      obtain ⟨hpf, hpx, hpd⟩ := (ddGroupPred_iff dd d dir p).1 hpred
      exact hnone p.1 ⟨p.2, enumL_get?_of_mem es p hp, hpf, hpx, hpd⟩
    simp only [ddAssign, ddFindGrouped, hfind, Option.map_none']
  · intro j hj
    simp only [ddAssignNearest] at hj
    by_cases hav : ((enumL 0 es).filter (fun p => !p.2.is_full)).isEmpty
    · rw [if_pos hav] at hj
      exact absurd hj (by simp)
    · rw [if_neg hav] at hj
      by_cases hidle : (((enumL 0 es).filter (fun p => !p.2.is_full)).filter
          (fun p => decide (p.2.state = ElevatorState.IDLE))).isEmpty
      · rw [if_neg (by rw [hidle]; decide)] at hj
        rcases Option.map_eq_some'.1 hj with ⟨p, hp, hfst⟩
        obtain ⟨hpmem, hple⟩ := pyMinBy_mem _ _ _ hp
        have h1 := List.mem_filter.1 hpmem
        have hget : es.get? p.1 = some p.2 := enumL_get?_of_mem es p h1.1
        have hpf : p.2.is_full = false := by
          have := h1.2
          simpa using this
        refine ⟨p.2, by rw [← hfst]; exact hget, hpf, ?_, ?_⟩
        · rintro ⟨q, hqmem, hqf, hqidle⟩
          exfalso
          obtain ⟨n, hn⟩ := List.mem_iff_get?.1 hqmem
          have hmemid : (n, q) ∈ ((enumL 0 es).filter
              (fun p => !p.2.is_full)).filter
              (fun p => decide (p.2.state = ElevatorState.IDLE)) := by
            refine List.mem_filter.2 ⟨List.mem_filter.2
              ⟨enumL_mem_of_get? es n q hn, by simp [hqf]⟩, by simp [hqidle]⟩
          rw [List.isEmpty_iff] at hidle
          rw [hidle] at hmemid
          simp at hmemid
        · intro _ k ek hk hkf
          have hkmem : (k, ek) ∈ (enumL 0 es).filter
              (fun p => !p.2.is_full) :=
            List.mem_filter.2 ⟨enumL_mem_of_get? es k ek hk, by simp [hkf]⟩
          exact hple (k, ek) hkmem
      · have hidle2 : (((enumL 0 es).filter (fun p => !p.2.is_full)).filter
            (fun p => decide (p.2.state = ElevatorState.IDLE))).isEmpty
            = false := Bool.eq_false_iff.2 hidle
        rw [if_pos (by rw [hidle2]; decide)] at hj
        rcases Option.map_eq_some'.1 hj with ⟨p, hp, hfst⟩
        obtain ⟨hpmem, hple⟩ := pyMinBy_mem _ _ _ hp
        have h2 := List.mem_filter.1 hpmem
        have h1 := List.mem_filter.1 h2.1
        have hget : es.get? p.1 = some p.2 := enumL_get?_of_mem es p h1.1
        have hpf : p.2.is_full = false := by
          have := h1.2
          simpa using this
        have hpidle : p.2.state = ElevatorState.IDLE := by
          have := h2.2
          simpa using this
        refine ⟨p.2, by rw [← hfst]; exact hget, hpf, ?_, ?_⟩
        · intro _
          refine ⟨hpidle, ?_⟩
          intro k ek hk hkf hkidle
          have hkmem : (k, ek) ∈ ((enumL 0 es).filter
              (fun p => !p.2.is_full)).filter
              (fun p => decide (p.2.state = ElevatorState.IDLE)) :=
            List.mem_filter.2 ⟨List.mem_filter.2
              ⟨enumL_mem_of_get? es k ek hk, by simp [hkf]⟩,
              by simp [hkidle]⟩
          exact hple (k, ek) hkmem
        · intro hall
          exact absurd hpidle (hall p.2 (List.get?_mem hget) hpf)

/-- Witness for C9: in the spec'''s worked example, elevator 0 (at floor
10, moving up, registered for destination 20) is chosen for a new
request at floor 2 with destination 21, although the idle elevator 1
sits right at floor 1; the fallback alone would have chosen the idle
elevator 1, which is non-full and idle. -/
theorem C9_destination_dispatch_witness :
    ddAssign exDD exDDFleet 2 .UP (some 21) = some 0 ∧
    ddAssignNearest exDDFleet 2 = some 1 ∧
    (mkElevator 2 8).is_full = false ∧
    (mkElevator 2 8).state = ElevatorState.IDLE := by
  have h := C9_destination_dispatch exDD exDDFleet 2 .UP 21
  refine ⟨?_, by decide, by decide, by decide⟩
  obtain ⟨j, hj, e, hget, hf, ⟨x, hx, hxd⟩, hdir⟩ := h.1
    ⟨0, exGrouped, rfl, by decide, ⟨20, by simp [exDD], by decide⟩,
      Or.inl rfl⟩
  obtain ⟨hjlt, -⟩ := List.get?_eq_some.1 hget
  have hj2 : j < 2 := by simpa [exDDFleet] using hjlt
  have hj0 : j = 0 := by
    by_contra hj1
    have h1 : j = 1 := by omega
    rw [h1] at hx
    simp [exDD] at hx
  rw [hj0] at hj
  exact hj

end ElevatorSim
